import Mathlib

set_option allowUnsafeReducibility true
attribute [local semireducible] Rat.sub Rat.add Rat.mul Rat.inv Rat.div Rat.ofScientific

/-!
# Verification of the DOS plotter core (`plotter.py`)

This file gives a shallow embedding of the data model and the core
operations of the DOS plotter: the total-DOS reader (`read_tdos`), the
projected-DOS reader (`read_pdos`), the structure-file reader
(`read_poscar`), the projection aggregator (`_calc_pdos_sum`, embedded as
`calc_pdos_sum`), the axis-range estimator (`_set_axes_limits`, non-spin
branch, embedded as `set_axes_limits_nospin`) and the guard of `plot_pdos`.

Modelling conventions:
* A main data file (DOSCAR) is modelled as the list of its lines, each line
  the list of its whitespace-delimited numeric tokens, read exactly; machine
  floats are modelled as rationals, so all arithmetic is exact.
* A structure file (POSCAR) is modelled as the list of its lines, each line
  the list of its whitespace-delimited string tokens.
* Python exceptions (`IndexError`, `ValueError`, the script's own
  `VaspFormatError` and `ImplementationError`) are modelled by `Option`
  (for the readers, where only success matters to the contracts) or by
  `Except PyError` where the identity of the error matters.
* numpy indexing `arr[i]` accepts `-n <= i < n`, a negative `i` selecting
  element `n + i`; this wrap-around is modelled faithfully by `npIndex`.
-/

namespace DosPlotter

/-- The Python exceptions that the script can surface, by kind. -/
inductive PyError where
  | valueError
  | indexError
  | vaspFormatError
  | implementationError
deriving DecidableEq

instance {ε α : Type} [DecidableEq ε] [DecidableEq α] : DecidableEq (Except ε α) := fun x y =>
  match x, y with
  | .ok a, .ok b => if h : a = b then .isTrue (by rw [h]) else .isFalse (by simp [h])
  | .error e, .error f => if h : e = f then .isTrue (by rw [h]) else .isFalse (by simp [h])
  | .ok _, .error _ => .isFalse (by simp)
  | .error _, .ok _ => .isFalse (by simp)

/-- `int(tok)` applied to a whitespace token that already parsed as a float:
only an integral value converts (Python's `int` of a numeric *string* token
rejects a fractional literal). Used for the atom count of line 0. -/
def ratToInt (q : ℚ) : Option ℤ :=
  if q.den = 1 then some q.num else none

/-- `int(x)` applied to an already-converted float `x`: truncation toward
zero. Used for the bin count taken from header line 5. -/
def pyInt (q : ℚ) : ℤ :=
  Int.tdiv q.num (q.den : ℤ)

/-- The result of `read_tdos`: the fields the method stores on `self`
(`natoms`, `bins`, `spin`) together with the dictionary `tdict`
(`en` and `tdos`).  `ncol` is the inferred value-column count
`len(row) - 1`; `fermi` is kept for specification purposes. -/
structure TotalDOS where
  natoms : ℤ
  bins : ℕ
  fermi : ℚ
  ncol : ℕ
  spin : Bool
  en : List ℚ
  tdos : List (List ℚ)
deriving DecidableEq

/-- Embedding of `DOSPlotter.read_tdos` (plotter.py lines 51-84).
`spin0` is the value of `self.spin` before the call (the method only ever
sets the flag, never clears it).  `none` models a raised Python exception
(`ValueError` on a malformed header, `IndexError` on a missing token,
numpy's rejection of a negative dimension). Rows missing from a short file
leave the preallocated zero entries of `np.zeros`, hence the padding. -/
def read_tdos (spin0 : Bool) (d : List (List ℚ)) : Option TotalDOS := do
  let line0 ← d[0]?
  let natQ ← line0[0]?
  let natoms ← ratToInt natQ
  let hdr ← d[5]?
  match hdr with
  | [_maxE, _minE, binsQ, fermi, _w] => do
    let binsI := pyInt binsQ
    if binsI < 0 then none else do
    let bins := binsI.toNat
    let rows := (d.drop 6).take bins
    let first ← rows[0]?
    if first.length = 0 then none else do
    let ncol := first.length - 1
    let spin := spin0 || decide (ncol = 4)
    let parsed ← rows.mapM (fun t => do
      let e0 ← t[0]?
      if ncol + 1 ≤ t.length then
        some (e0 - fermi, ((t.drop 1).take ncol).map (fun v => v / (natoms : ℚ)))
      else none)
    some ⟨natoms, bins, fermi, ncol, spin,
      (parsed.map Prod.fst) ++ List.replicate (bins - rows.length) 0,
      (parsed.map Prod.snd) ++ List.replicate (bins - rows.length) (List.replicate ncol 0)⟩
  | _ => none

/-- The result of `read_pdos`: the fields stored on `self` together with
the dictionary `pdict` (`en` and the site x bin x orbital tensor `pdos`). -/
structure ProjectedDOS where
  natoms : ℤ
  bins : ℕ
  fermi : ℚ
  ncol : ℕ
  spin : Bool
  en : List ℚ
  pdos : List (List (List ℚ))
deriving DecidableEq

/-- One data row written into the tensor: `pdos[site][nbin][col] = p[col+1]`
for `col in range(ncol)` (plotter.py lines 122-123), column by column. -/
def writeRow (T : List (List (List ℚ))) (site nbin ncol : ℕ) (p : List ℚ) :
    List (List (List ℚ)) :=
  let mat := T.getD site []
  let row := mat.getD nbin []
  let row2 := (List.range ncol).foldl (fun r col => r.set col (p.getD (col + 1) 0)) row
  T.set site (mat.set nbin row2)

/-- The main loop of `read_pdos` (plotter.py lines 116-124): iterate over
all lines of the projected block with running offset `i`; a line at a
multiple of `bins + 1` is a separator, discarded, resetting the
within-segment bin counter `nbin`; any other line is a data row written to
site `i / (bins + 1)`.  The guard models numpy's bounds check on the write
and the `IndexError` of `p[col+1]` on a short row. -/
def pdosLoop (B1 natoms bins ncol : ℕ) :
    List (List ℚ) → ℕ → ℕ → List (List (List ℚ)) → Option (List (List (List ℚ)))
  | [], _, _, T => some T
  | p :: rest, i, nbin, T =>
    if i % B1 = 0 then
      pdosLoop B1 natoms bins ncol rest (i + 1) 0 T
    else
      let site := i / B1
      if site < natoms ∧ nbin < bins ∧ ncol + 1 ≤ p.length then
        pdosLoop B1 natoms bins ncol rest (i + 1) (nbin + 1) (writeRow T site nbin ncol p)
      else none

/-- Specification artifact for `pdosLoop`: the writes performed while the
loop consumes a run of consecutive data rows of one segment, starting at
within-segment bin `nb`.  Used only to state the loop's closed form. -/
def writeRowsAux (site ncol : ℕ) : List (List ℚ) → ℕ → List (List (List ℚ)) → List (List (List ℚ))
  | [], _, T => T
  | p :: rest, nb, T => writeRowsAux site ncol rest (nb + 1) (writeRow T site nb ncol p)

/-- Embedding of `DOSPlotter.read_pdos` (plotter.py lines 87-130).
`spin0` is the value of `self.spin` before the call. -/
def read_pdos (spin0 : Bool) (d : List (List ℚ)) : Option ProjectedDOS := do
  let line0 ← d[0]?
  let natQ ← line0[0]?
  let natoms ← ratToInt natQ
  let hdr ← d[5]?
  match hdr with
  | [_maxE, _minE, binsQ, fermi, _w] => do
    let binsI := pyInt binsQ
    if binsI < 0 then none else do
    let bins := binsI.toNat
    let plines := d.drop (bins + 6)
    let firstData ← plines[1]?
    if firstData.length = 0 then none else do
    let ncol := firstData.length - 1
    let spin := spin0 || decide (ncol = 2 ∨ ncol = 8 ∨ ncol = 18)
    if natoms < 0 then none else do
    let enParsed ← ((plines.drop 1).take bins).mapM (fun p => do
      let e0 ← p[0]?
      some (e0 - fermi))
    let en := enParsed ++ List.replicate (bins - ((plines.drop 1).take bins).length) 0
    let init := List.replicate natoms.toNat (List.replicate bins (List.replicate ncol (0 : ℚ)))
    let tensor ← pdosLoop (bins + 1) natoms.toNat bins ncol plines 0 0 init
    some ⟨natoms, bins, fermi, ncol, spin, en, tensor⟩
  | _ => none

/-- numpy index resolution on an axis of length `n`: a nonnegative index
must be `< n`; a negative index `i` with `-n ≤ i` wraps to `n + i`;
anything else raises `IndexError` (modelled as `none`). -/
def npIndex (n : ℕ) (i : ℤ) : Option ℕ :=
  if 0 ≤ i ∧ i < (n : ℤ) then some i.toNat
  else if -(n : ℤ) ≤ i ∧ i < 0 then some ((n : ℤ) + i).toNat
  else none

/-- numpy slice `pdos[site, :, orb]`: resolve `site` on the first axis,
then extract entry `orb` from every bin row of that site. -/
def npColumn (T : List (List (List ℚ))) (site orb : ℤ) : Option (List ℚ) := do
  let s ← npIndex T.length site
  (T.getD s []).mapM (fun row => (npIndex row.length orb).map (fun o => row.getD o 0))

/-- numpy `dos += col`: elementwise addition, defined only when the shapes
agree (a mismatch raises a broadcast error). -/
def vecAdd (xs ys : List ℚ) : Option (List ℚ) :=
  if xs.length = ys.length then some (List.zipWith (fun a b => a + b) xs ys) else none

/-- Inner loop of `_calc_pdos_sum`: `for orb in range(orbs[0]-1, orbs[1]):
dos += pdos[site, :, orb]`. -/
def orbLoop (T : List (List (List ℚ))) (site : ℤ) :
    List ℤ → List ℚ → Option (List ℚ)
  | [], dos => some dos
  | orb :: rest, dos => do
      let col ← npColumn T site orb
      let dos2 ← vecAdd dos col
      orbLoop T site rest dos2

/-- Outer loop of `_calc_pdos_sum`: `for site in sites: ...`. -/
def siteLoop (T : List (List (List ℚ))) (orbs : List ℤ) :
    List ℤ → List ℚ → Option (List ℚ)
  | [], dos => some dos
  | st :: rest, dos => do
      let dos2 ← orbLoop T st orbs dos
      siteLoop T orbs rest dos2

/-- Python `range(lo, hi)` over (possibly negative) integers. -/
def intRange (lo hi : ℤ) : List ℤ :=
  (List.range (hi - lo).toNat).map (fun k : ℕ => lo + (k : ℤ))

/-- Embedding of `DOSPlotter._calc_pdos_sum` (plotter.py lines 382-391).
The projection's ranges are taken already split at `'-'` and converted by
`int`, i.e. as the pairs `(a, b)` and `(c, d)` of 1-based bounds; the
element/label/color tokens of the spec line are not used by the
computation.  `bins` is `self.bins` and `natoms` is `self.natoms`. -/
def calc_pdos_sum (bins : ℕ) (natoms : ℤ) (T : List (List (List ℚ)))
    (siteR orbR : ℕ × ℕ) : Option (List ℚ) := do
  let sites := intRange ((siteR.1 : ℤ) - 1) (siteR.2 : ℤ)
  let orbs := intRange ((orbR.1 : ℤ) - 1) (orbR.2 : ℤ)
  let dos ← siteLoop T orbs sites (List.replicate bins (0 : ℚ))
  some (dos.map (fun v => v / (natoms : ℚ)))

/-- Embedding of the non-spin branch of `DOSPlotter._set_axes_limits`
(plotter.py lines 267-269 and 286-296), returning the bounds
`(x_min, x_max, y_min, y_max)` passed to `set_xlim`/`set_ylim`.  The spin
branch (lines 270-285) is not needed by any contract below.  The curve
`dos` itself is not modified. -/
def set_axes_limits_nospin (bins : ℕ) (en dos : List ℚ) : ℚ × ℚ × ℚ × ℚ :=
  let xlo : ℚ := -6
  let xhi : ℚ := 6
  let ymax0 := (List.range bins).foldl (fun ymax i =>
    if xlo ≤ en.getD i 0 ∧ en.getD i 0 ≤ xhi then
      (if ymax < dos.getD i 0 then dos.getD i 0 else ymax)
    else ymax) 0
  let ymax1 := if 5 < ymax0 then 5 else ymax0
  (xlo, xhi, 0, (1.05 : ℚ) * ymax1)

/-- Python-2 `isinstance(tok, str)` applied to a token produced by
`str.split()`: such a token is always a `str`, so the test is always true.
This is the exact check of plotter.py line 165. -/
def isinstance_str (_tok : String) : Bool := true

/-- The result of `read_poscar`: `self._natoms` and the 1-based
index-to-symbol mapping `self.elems`. -/
structure ElemTable where
  natoms : ℤ
  elems : List (ℕ × String)
deriving DecidableEq

/-- The expansion loop of `read_poscar` (plotter.py lines 170-175):
`index` starts at 1 and each `(elem, natom)` pair claims `natom`
consecutive indices. -/
def expandElems : List (String × ℤ) → ℕ → List (ℕ × String)
  | [], _ => []
  | (e, n) :: rest, idx =>
      ((List.range n.toNat).map (fun k => (idx + k, e))) ++ expandElems rest (idx + n.toNat)

/-- Decimal-digit parse of a character list, `none` if empty or if any
character is not a digit. -/
def digitsToNat (cs : List Char) : Option ℕ :=
  if cs = [] then none
  else cs.foldl (fun acc c =>
    acc.bind (fun a => if c.isDigit then some (10 * a + (c.toNat - 48)) else none)) (some 0)

/-- `int(tok)` on a raw string token (used for the per-element atom counts
of structure-file line 6): an optional sign followed by decimal digits;
anything else raises `ValueError`. -/
def pyIntString (s : String) : Option ℤ :=
  match s.toList with
  | '-' :: rest => (digitsToNat rest).map (fun n => -(n : ℤ))
  | '+' :: rest => (digitsToNat rest).map (fun n => (n : ℤ))
  | cs => (digitsToNat cs).map (fun n => (n : ℤ))

/-- Embedding of `DOSPlotter.read_poscar` (plotter.py lines 151-177),
keeping the kind of each raised exception. -/
def read_poscar (pos : List (List String)) : Except PyError ElemTable :=
  match pos[5]? with
  | none => Except.error PyError.indexError
  | some elems =>
    if ¬ (elems.all isinstance_str) then Except.error PyError.vaspFormatError
    else match pos[6]? with
      | none => Except.error PyError.indexError
      | some l6 =>
        match l6.mapM pyIntString with
        | none => Except.error PyError.valueError
        | some natomsL =>
            Except.ok ⟨natomsL.sum, expandElems (elems.zip natomsL) 1⟩

/-- Modelled from the spec: what §4.3 calls a "symbolic string" — an
element-symbol token, beginning with a letter — as opposed to the numeric
tokens that occupy line 5 in the pre-VASP5 structure-file format.  The
source never defines this test (its `isinstance` check is the dead code
above); it is needed only to state which inputs the spec expects to be
rejected. -/
def isSymbolicToken (s : String) : Bool :=
  match s.toList with
  | [] => false
  | c :: _ => c.isAlpha

/-- The curve-producing core of `DOSPlotter.plot_pdos` (plotter.py lines
334-350) after the input files have been read: if the spin flag is set,
`ImplementationError` is raised before any projection curve is computed;
otherwise each projection is aggregated by `_calc_pdos_sum` (an
out-of-range projection surfacing numpy's `IndexError`).  The rendering
calls are external collaborators and carry no data. -/
def plot_pdos_curves (spin : Bool) (bins : ℕ) (natoms : ℤ)
    (T : List (List (List ℚ))) (projs : List ((ℕ × ℕ) × (ℕ × ℕ))) :
    Except PyError (List (List ℚ)) :=
  if spin then Except.error PyError.implementationError
  else projs.mapM (fun pr =>
    match calc_pdos_sum bins natoms T pr.1 pr.2 with
    | some dos => Except.ok dos
    | none => Except.error PyError.indexError)

/-- The tensor entry `pdos[s][b][o]` (zero if out of range; all uses below
are guarded by shape facts). -/
def tensorEntry (T : List (List (List ℚ))) (s b o : ℕ) : ℚ :=
  ((T.getD s []).getD b []).getD o 0

/-- Indexed read of the tensor, `none` out of range. -/
def tget (T : List (List (List ℚ))) (s b o : ℕ) : Option ℚ :=
  (T[s]?).bind (fun m => (m[b]?).bind (fun r => r[o]?))

/-- The tensor has shape `ns × nb × no`. -/
def Shape3 (T : List (List (List ℚ))) (ns nb no : ℕ) : Prop :=
  T.length = ns ∧ ∀ m ∈ T, m.length = nb ∧ ∀ r ∈ m, r.length = no

instance (T : List (List (List ℚ))) (ns nb no : ℕ) : Decidable (Shape3 T ns nb no) := by
  unfold Shape3
  infer_instance

/-- The curve values at bins whose energy lies in the display window
`[-6, 6]` — the set of values §4.6 says the estimator maximizes over
(stated from the spec, for comparison with `set_axes_limits_nospin`). -/
def windowValues (en dos : List ℚ) : List ℚ :=
  (List.zip en dos).filterMap (fun p => if -6 ≤ p.1 ∧ p.1 ≤ 6 then some p.2 else none)

/-! ## General helper lemmas -/

theorem mapM_eq_map_some {α β : Type} (f : α → Option β) (g : α → β) :
    ∀ l : List α, (∀ x ∈ l, f x = some (g x)) → l.mapM f = some (l.map g) := by
  intro l
  induction l with
  | nil => intro _; rfl
  | cons a t ih =>
    intro h
    rw [List.mapM_cons, h a (List.mem_cons_self a t),
      ih (fun x hx => h x (List.mem_cons_of_mem a hx))]
    rfl

theorem ratToInt_intCast (n : ℤ) : ratToInt ((n : ℚ)) = some n := by
  simp [ratToInt]

theorem pyInt_natCast (n : ℕ) : pyInt ((n : ℚ)) = (n : ℤ) := by
  simp [pyInt]

/-! ## The total-DOS reader on a well-formed file -/

/-- Forward evaluation of `read_tdos` on a well-formed main data file:
line 0 carries the atom count, line 5 the five header floats with an
integral bin count, and the `bins` total-DOS rows each carry `ncol + 1`
tokens.  The reader then succeeds, shifting every energy by `fermi` and
dividing every retained value column by the atom count. -/
theorem read_tdos_spec (spin0 : Bool) (d : List (List ℚ)) (line0 : List ℚ)
    (natoms : ℤ) (bins ncol : ℕ) (maxE minE fermi w : ℚ) (rows : List (List ℚ))
    (h0 : d[0]? = some line0) (h0t : line0[0]? = some ((natoms : ℚ)))
    (h5 : d[5]? = some [maxE, minE, (bins : ℚ), fermi, w])
    (hrows : rows = (d.drop 6).take bins)
    (hlen : bins ≤ (d.drop 6).length)
    (hcol : ∀ t ∈ rows, t.length = ncol + 1)
    (hbins : 0 < bins) :
    read_tdos spin0 d = some ⟨natoms, bins, fermi, ncol, spin0 || decide (ncol = 4),
      rows.map (fun t => t.getD 0 0 - fermi),
      rows.map (fun t => ((t.drop 1).take ncol).map (fun v => v / (natoms : ℚ)))⟩ := by
  have hrl : rows.length = bins := by
    subst hrows; rw [List.length_take]; exact Nat.min_eq_left hlen
  have hmapM : rows.mapM (fun t => do
      let e0 ← t[0]?
      if ncol + 1 ≤ t.length then
        some (e0 - fermi, ((t.drop 1).take ncol).map (fun v => v / (natoms : ℚ)))
      else none)
      = some (rows.map (fun t =>
        (t.getD 0 0 - fermi, ((t.drop 1).take ncol).map (fun v => v / (natoms : ℚ))))) := by
    apply mapM_eq_map_some
    intro t ht
    have htl : t.length = ncol + 1 := hcol t ht
    have h0t' : t[0]? = some (t.getD 0 0) := by
      rw [List.getD_eq_getElem?_getD, List.getElem?_eq_getElem (by omega)]
      rfl
    rw [h0t']
    simp only [Option.bind_eq_bind, Option.some_bind]
    rw [htl, if_pos (Nat.le_refl (ncol + 1))]
  have h0lt : 0 < rows.length := by omega
  obtain ⟨t0, ht0some⟩ : ∃ t0, rows[0]? = some t0 := by
    rw [List.getElem?_eq_getElem h0lt]; exact ⟨_, rfl⟩
  have ht0l : t0.length = ncol + 1 := hcol t0 (List.getElem?_mem ht0some)
  simp only [Option.bind_eq_bind] at hmapM
  simp only [read_tdos, h0, h5, h0t, Option.bind_eq_bind, Option.some_bind,
    ratToInt_intCast, pyInt_natCast, Int.toNat_natCast]
  rw [if_neg (not_lt.mpr (Int.natCast_nonneg bins)), ← hrows, ht0some]
  simp only [Option.some_bind]
  rw [ht0l, if_neg (Nat.succ_ne_zero ncol)]
  simp only [Nat.add_sub_cancel]
  rw [hmapM]
  simp only [Option.some_bind]
  rw [hrl, Nat.sub_self]
  simp [List.map_map, Function.comp]

/-- Entry access into the energy array produced by `read_tdos`. -/
theorem tdos_en_getElem (rows : List (List ℚ)) (fermi : ℚ) (i : ℕ)
    (hi : i < rows.length) :
    (rows.map (fun t => t.getD 0 0 - fermi))[i]? = some ((rows.getD i []).getD 0 0 - fermi) := by
  have hri : rows[i]? = some (rows.getD i []) := by
    rw [List.getD_eq_getElem?_getD, List.getElem?_eq_getElem hi]; rfl
  rw [List.getElem?_map, hri, Option.map_some']

/-- Entry access into the channel matrix produced by `read_tdos`: the value
stored at bin `i`, column `c` is the raw token at column `c + 1` of data row
`i`, divided by the atom count. -/
theorem tdos_entry_getD (rows : List (List ℚ)) (natoms : ℤ) (ncol i c : ℕ)
    (hi : i < rows.length) (hc : c < ncol)
    (hlr : (rows.getD i []).length = ncol + 1) :
    ((rows.map (fun t => ((t.drop 1).take ncol).map (fun v => v / (natoms : ℚ)))).getD i []).getD c 0
      = (rows.getD i []).getD (c + 1) 0 / (natoms : ℚ) := by
  have hri : rows[i]? = some (rows.getD i []) := by
    rw [List.getD_eq_getElem?_getD, List.getElem?_eq_getElem hi]; rfl
  have houter : (rows.map (fun t => ((t.drop 1).take ncol).map (fun v => v / (natoms : ℚ)))).getD i []
      = (((rows.getD i []).drop 1).take ncol).map (fun v => v / (natoms : ℚ)) := by
    rw [List.getD_eq_getElem?_getD, List.getElem?_map, hri, Option.map_some']
    rfl
  rw [houter, List.getD_eq_getElem?_getD, List.getElem?_map, List.getElem?_take_of_lt hc,
    List.getElem?_drop, List.getElem?_eq_getElem (by omega)]
  rw [Option.map_some']
  have : (rows.getD i []).getD (c + 1) 0 = (rows.getD i [])[1 + c] := by
    rw [List.getD_eq_getElem?_getD, Nat.add_comm c 1, List.getElem?_eq_getElem (by omega)]; rfl
  rw [this]
  rfl

/-- **C1**: TotalDOSReader postcondition.  On every well-formed main data
file: the stored energy of bin `i` is the raw energy token of data row `i`
minus the Fermi energy read from header line 5; every stored channel value
is the corresponding raw DOS token divided by the atom count read from
line 0; re-parsing the same file yields the identical result.  The
synthetic 2-atom, 3-bin file of spec section 8 is evaluated in the
witness, yielding energies `[1, 0, -1]` and channels `[[2], [1], [0]]`. -/
theorem read_tdos_postcondition (spin0 : Bool) (d : List (List ℚ)) (line0 : List ℚ)
    (natoms : ℤ) (bins ncol : ℕ) (maxE minE fermi w : ℚ) (rows : List (List ℚ))
    (h0 : d[0]? = some line0) (h0t : line0[0]? = some ((natoms : ℚ)))
    (h5 : d[5]? = some [maxE, minE, (bins : ℚ), fermi, w])
    (hrows : rows = (d.drop 6).take bins)
    (hlen : bins ≤ (d.drop 6).length)
    (hcol : ∀ t ∈ rows, t.length = ncol + 1)
    (hbins : 0 < bins) :
    ∃ td, read_tdos spin0 d = some td ∧
      td.natoms = natoms ∧ td.bins = bins ∧ td.fermi = fermi ∧
      td.en.length = bins ∧
      (∀ i, i < bins → td.en[i]? = some ((rows.getD i []).getD 0 0 - fermi)) ∧
      (∀ i c, i < bins → c < ncol →
        (td.tdos.getD i []).getD c 0 = (rows.getD i []).getD (c + 1) 0 / (natoms : ℚ)) ∧
      (∀ td2, read_tdos spin0 d = some td2 → td2 = td) := by
  have hrl : rows.length = bins := by
    subst hrows; rw [List.length_take]; exact Nat.min_eq_left hlen
  have hspec := read_tdos_spec spin0 d line0 natoms bins ncol maxE minE fermi w rows
    h0 h0t h5 hrows hlen hcol hbins
  refine ⟨_, hspec, rfl, rfl, rfl, ?_, ?_, ?_, ?_⟩
  · simp [hrl]
  · intro i hi
    exact tdos_en_getElem rows fermi i (by omega)
  · intro i c hi hc
    have hri : rows[i]? = some (rows.getD i []) := by
      rw [List.getD_eq_getElem?_getD, List.getElem?_eq_getElem (by omega)]; rfl
    exact tdos_entry_getD rows natoms ncol i c (by omega) hc
      (hcol _ (List.getElem?_mem hri))
  · intro td2 h2
    rw [hspec] at h2
    exact (Option.some_inj.mp h2).symm

/-- Witness for `read_tdos_postcondition`: the synthetic 2-atom, 3-bin,
non-spin main data file of spec section 8 (atom count 2, bin count 3,
Fermi energy 1, rows `(2, 4)`, `(1, 2)`, `(0, 0)`); the parsed energies
are `[1, 0, -1]` and the channels `[[2], [1], [0]]`. -/
theorem read_tdos_postcondition_witness :
    (∃ td, read_tdos false [[2],[],[],[],[],[10,-10,3,1,1],[2,4],[1,2],[0,0]] = some td ∧
      td.natoms = 2 ∧ td.bins = 3 ∧ td.fermi = 1 ∧
      td.en.length = 3 ∧
      (∀ i, i < 3 → td.en[i]? =
        some (([[2,4],[1,2],[0,0]].getD i ([] : List ℚ)).getD 0 0 - 1)) ∧
      (∀ i c, i < 3 → c < 1 →
        (td.tdos.getD i []).getD c 0 =
          ([[2,4],[1,2],[0,0]].getD i ([] : List ℚ)).getD (c + 1) 0 / ((2 : ℤ) : ℚ)) ∧
      (∀ td2, read_tdos false [[2],[],[],[],[],[10,-10,3,1,1],[2,4],[1,2],[0,0]] = some td2 →
        td2 = td)) ∧
    read_tdos false [[2],[],[],[],[],[10,-10,3,1,1],[2,4],[1,2],[0,0]]
      = some ⟨2, 3, 1, 1, false, [1, 0, -1], [[2], [1], [0]]⟩ :=
  ⟨read_tdos_postcondition false _ [2] 2 3 1 10 (-10) 1 1 [[2,4],[1,2],[0,0]]
      (by decide) (by norm_num) (by norm_num) (by decide) (by decide) (by decide) (by decide),
    by decide⟩

/-- Counterexample refuting **C7**: on a spin-polarized total-DOS file (one
atom, one bin, value columns `1, 2, 3, 4`) the reader stores ALL FOUR
columns in `channels` — the two cumulative-integral columns (`3` and `4`)
are retained, not dropped as the claim states (the claim predicts
channels `[[1, 2]]`). -/
theorem tdos_spin_retention_cex :
    read_tdos false [[1],[],[],[],[],[10,-10,1,0,1],[5,1,2,3,4]]
      = some ⟨1, 1, 0, 4, true, [5], [[1, 2, 3, 4]]⟩ := by decide

/-- **C7** (amended): when the inferred value-column count is 4 the reader
records the spin-polarized flag, and `channels` stores the up channel in
column 0 and the down channel in column 1 — but the remaining two
cumulative-integral columns ARE also retained, as columns 2 and 3, every
column divided by the atom count. -/
theorem tdos_spin_retention (spin0 : Bool) (d : List (List ℚ)) (line0 : List ℚ)
    (natoms : ℤ) (bins : ℕ) (maxE minE fermi w : ℚ) (rows : List (List ℚ))
    (h0 : d[0]? = some line0) (h0t : line0[0]? = some ((natoms : ℚ)))
    (h5 : d[5]? = some [maxE, minE, (bins : ℚ), fermi, w])
    (hrows : rows = (d.drop 6).take bins)
    (hlen : bins ≤ (d.drop 6).length)
    (hcol : ∀ t ∈ rows, t.length = 5)
    (hbins : 0 < bins) :
    ∃ td, read_tdos spin0 d = some td ∧ td.spin = true ∧
      (∀ i, i < bins → (td.tdos.getD i []).length = 4 ∧
        ∀ c, c < 4 →
          (td.tdos.getD i []).getD c 0 = (rows.getD i []).getD (c + 1) 0 / (natoms : ℚ)) := by
  have hrl : rows.length = bins := by
    subst hrows; rw [List.length_take]; exact Nat.min_eq_left hlen
  have hspec := read_tdos_spec spin0 d line0 natoms bins 4 maxE minE fermi w rows
    h0 h0t h5 hrows hlen hcol hbins
  refine ⟨_, hspec, by simp, ?_⟩
  intro i hi
  have hri : rows[i]? = some (rows.getD i []) := by
    rw [List.getD_eq_getElem?_getD, List.getElem?_eq_getElem (by omega)]; rfl
  have hlr : (rows.getD i []).length = 5 := hcol _ (List.getElem?_mem hri)
  constructor
  · have houter : (rows.map (fun t => ((t.drop 1).take 4).map (fun v => v / (natoms : ℚ)))).getD i []
        = (((rows.getD i []).drop 1).take 4).map (fun v => v / (natoms : ℚ)) := by
      rw [List.getD_eq_getElem?_getD, List.getElem?_map, hri, Option.map_some']
      rfl
    rw [houter, List.length_map, List.length_take, List.length_drop, hlr]
    omega
  · intro c hc
    exact tdos_entry_getD rows natoms 4 i c (by omega) hc hlr

/-- Witness for `tdos_spin_retention`: the one-atom, one-bin spin file with
row `5, 1, 2, 3, 4`; the spin flag is set and all four value columns are
stored (divided by the atom count 1). -/
theorem tdos_spin_retention_witness :
    (∃ td, read_tdos false [[1],[],[],[],[],[10,-10,1,0,1],[5,1,2,3,4]] = some td ∧
      td.spin = true ∧
      (∀ i, i < 1 → (td.tdos.getD i []).length = 4 ∧
        ∀ c, c < 4 →
          (td.tdos.getD i []).getD c 0 =
            ([[5,1,2,3,4]].getD i ([] : List ℚ)).getD (c + 1) 0 / ((1 : ℤ) : ℚ))) :=
  tdos_spin_retention false _ [1] 1 1 10 (-10) 0 1 [[5,1,2,3,4]]
    (by decide) (by norm_num) (by norm_num) (by decide) (by decide) (by decide) (by decide)

/-! ## The projection aggregator: in-range closed form -/

theorem npIndex_natCast (n s : ℕ) (h : s < n) : npIndex n (s : ℤ) = some s := by
  rw [npIndex, if_pos ⟨Int.natCast_nonneg s, by exact_mod_cast h⟩, Int.toNat_natCast]

theorem npIndex_none_of_ge (n s : ℕ) (h : n ≤ s) : npIndex n (s : ℤ) = none := by
  rw [npIndex, if_neg (by omega), if_neg (by omega)]

theorem getD_mem_of_lt {α : Type} (l : List α) (x : α) (n : ℕ) (h : n < l.length) :
    l.getD n x ∈ l := by
  apply List.getElem?_mem (n := n)
  rw [List.getD_eq_getElem?_getD, List.getElem?_eq_getElem h]
  rfl

theorem shape3_mat_length {T : List (List (List ℚ))} {ns nb no s : ℕ}
    (hsh : Shape3 T ns nb no) (hs : s < ns) : (T.getD s []).length = nb := by
  have hT : T.length = ns := hsh.1
  exact (hsh.2 _ (getD_mem_of_lt T [] s (by omega))).1

theorem shape3_row_length {T : List (List (List ℚ))} {ns nb no s b : ℕ}
    (hsh : Shape3 T ns nb no) (hs : s < ns) (hb : b < nb) :
    ((T.getD s []).getD b []).length = no := by
  have hT : T.length = ns := hsh.1
  have hmem : T.getD s [] ∈ T := getD_mem_of_lt T [] s (by omega)
  have hml : (T.getD s []).length = nb := (hsh.2 _ hmem).1
  exact (hsh.2 _ hmem).2 _ (getD_mem_of_lt _ [] b (by omega))

theorem getD_map_rows (mat : List (List ℚ)) (o i : ℕ) (hi : i < mat.length) :
    (mat.map (fun row => row.getD o 0)).getD i 0 = (mat.getD i []).getD o 0 := by
  rw [List.getD_eq_getElem?_getD, List.getElem?_map, List.getElem?_eq_getElem hi,
    Option.map_some']
  rw [List.getD_eq_getElem?_getD (l := mat), List.getElem?_eq_getElem hi]
  rfl

theorem getD_map_div (dos : List ℚ) (q : ℚ) (i : ℕ) (hi : i < dos.length) :
    (dos.map (fun v => v / q)).getD i 0 = dos.getD i 0 / q := by
  rw [List.getD_eq_getElem?_getD, List.getElem?_map, List.getElem?_eq_getElem hi,
    Option.map_some']
  rw [List.getD_eq_getElem?_getD (l := dos), List.getElem?_eq_getElem hi]
  rfl

theorem zipWith_add_getD (xs ys : List ℚ) (i : ℕ) (hx : i < xs.length) (hy : i < ys.length) :
    (List.zipWith (fun a b => a + b) xs ys).getD i 0 = xs.getD i 0 + ys.getD i 0 := by
  rw [List.getD_eq_getElem?_getD, List.getElem?_zipWith', List.getElem?_eq_getElem hx,
    List.getElem?_eq_getElem hy]
  rw [List.getD_eq_getElem?_getD (l := xs), List.getElem?_eq_getElem hx]
  rw [List.getD_eq_getElem?_getD (l := ys), List.getElem?_eq_getElem hy]
  rfl

theorem npColumn_inrange (T : List (List (List ℚ))) (ns nb no s o : ℕ)
    (hsh : Shape3 T ns nb no) (hs : s < ns) (ho : o < no) :
    npColumn T (s : ℤ) (o : ℤ) = some ((T.getD s []).map (fun row => row.getD o 0)) := by
  have hT : T.length = ns := hsh.1
  have hmem : T.getD s [] ∈ T := getD_mem_of_lt T [] s (by omega)
  rw [npColumn]
  rw [hsh.1, npIndex_natCast ns s hs]
  simp only [Option.bind_eq_bind, Option.some_bind]
  apply mapM_eq_map_some
  intro row hrow
  rw [(hsh.2 _ hmem).2 row hrow, npIndex_natCast no o ho, Option.map_some']

theorem vecAdd_eq (xs ys : List ℚ) (h : xs.length = ys.length) :
    vecAdd xs ys = some (List.zipWith (fun a b => a + b) xs ys) := by
  rw [vecAdd, if_pos h]

/-- Closed form of the inner orbital loop: entirely in-range orbital
indices add, bin by bin, the selected tensor entries of site `s`. -/
theorem orbLoop_closed (T : List (List (List ℚ))) (ns nb no s : ℕ)
    (hsh : Shape3 T ns nb no) (hs : s < ns) :
    ∀ (orbs : List ℤ) (dos : List ℚ), dos.length = nb →
      (∀ o ∈ orbs, ∃ ov : ℕ, o = (ov : ℤ) ∧ ov < no) →
      ∃ dos2, orbLoop T (s : ℤ) orbs dos = some dos2 ∧ dos2.length = nb ∧
        ∀ i, i < nb → dos2.getD i 0
          = dos.getD i 0 + (orbs.map (fun o => tensorEntry T s i o.toNat)).sum := by
  intro orbs
  induction orbs with
  | nil =>
    intro dos hlen _
    exact ⟨dos, rfl, hlen, fun i _ => by simp⟩
  | cons o rest ih =>
    intro dos hlen hall
    obtain ⟨ov, ho, honlt⟩ := hall o (List.mem_cons_self o rest)
    subst ho
    have hcol := npColumn_inrange T ns nb no s ov hsh hs honlt
    have hmatlen : (T.getD s []).length = nb := shape3_mat_length hsh hs
    have hclen : ((T.getD s []).map (fun row => row.getD ov 0)).length = nb := by
      rw [List.length_map, hmatlen]
    have hsum := vecAdd_eq dos ((T.getD s []).map (fun row => row.getD ov 0))
      (by rw [hlen, hclen])
    obtain ⟨dos2, h2, hlen2, hval2⟩ := ih
      (List.zipWith (fun a b => a + b) dos ((T.getD s []).map (fun row => row.getD ov 0)))
      (by rw [List.length_zipWith, hlen, hclen]; exact Nat.min_self nb)
      (fun o ho => hall o (List.mem_cons_of_mem _ ho))
    refine ⟨dos2, ?_, hlen2, ?_⟩
    · rw [orbLoop, hcol]
      simp only [Option.bind_eq_bind, Option.some_bind]
      rw [hsum]
      simp only [Option.some_bind]
      exact h2
    · intro i hi
      rw [hval2 i hi,
        zipWith_add_getD dos _ i (by omega) (by rw [hclen]; omega),
        getD_map_rows _ ov i (by rw [hmatlen]; omega)]
      show _ = dos.getD i 0 + (tensorEntry T s i ((ov : ℤ)).toNat
        + (rest.map (fun o => tensorEntry T s i o.toNat)).sum)
      rw [Int.toNat_natCast]
      show dos.getD i 0 + tensorEntry T s i ov
          + (rest.map (fun o => tensorEntry T s i o.toNat)).sum = _
      rw [add_assoc]

/-- Closed form of the outer site loop over in-range sites. -/
theorem siteLoop_closed (T : List (List (List ℚ))) (ns nb no : ℕ) (orbs : List ℤ)
    (hsh : Shape3 T ns nb no)
    (horbs : ∀ o ∈ orbs, ∃ ov : ℕ, o = (ov : ℤ) ∧ ov < no) :
    ∀ (sites : List ℤ) (dos : List ℚ), dos.length = nb →
      (∀ st ∈ sites, ∃ sn : ℕ, st = (sn : ℤ) ∧ sn < ns) →
      ∃ dos2, siteLoop T orbs sites dos = some dos2 ∧ dos2.length = nb ∧
        ∀ i, i < nb → dos2.getD i 0
          = dos.getD i 0 + (sites.map (fun st =>
              (orbs.map (fun o => tensorEntry T st.toNat i o.toNat)).sum)).sum := by
  intro sites
  induction sites with
  | nil =>
    intro dos hlen _
    exact ⟨dos, rfl, hlen, fun i _ => by simp⟩
  | cons st rest ih =>
    intro dos hlen hall
    obtain ⟨sn, hst, hsnlt⟩ := hall st (List.mem_cons_self st rest)
    subst hst
    obtain ⟨dos1, h1, hlen1, hval1⟩ := orbLoop_closed T ns nb no sn hsh hsnlt orbs dos hlen horbs
    obtain ⟨dos2, h2, hlen2, hval2⟩ := ih dos1 hlen1
      (fun x hx => hall x (List.mem_cons_of_mem _ hx))
    refine ⟨dos2, ?_, hlen2, ?_⟩
    · rw [siteLoop, h1]
      simp only [Option.bind_eq_bind, Option.some_bind]
      exact h2
    · intro i hi
      rw [hval2 i hi, hval1 i hi, List.map_cons, List.sum_cons, Int.toNat_natCast, add_assoc]

theorem intRange_mem (lo hi x : ℤ) (hx : x ∈ intRange lo hi) : lo ≤ x ∧ x < hi := by
  rw [intRange] at hx
  obtain ⟨k, hk, hke⟩ := List.mem_map.mp hx
  rw [List.mem_range] at hk
  omega

/-- Shared closed form of `_calc_pdos_sum` when the 1-based bounds lie
within the tensor: at every bin the result is the double sum of the
selected tensor entries, divided by `natoms`. -/
theorem calc_pdos_sum_inrange (T : List (List (List ℚ))) (ns nb no : ℕ) (natoms : ℤ)
    (a b c d : ℕ) (hsh : Shape3 T ns nb no)
    (ha : 1 ≤ a) (hb : b ≤ ns) (hc : 1 ≤ c) (hd : d ≤ no) :
    ∃ dos, calc_pdos_sum nb natoms T (a, b) (c, d) = some dos ∧ dos.length = nb ∧
      ∀ i, i < nb → dos.getD i 0
        = ((intRange ((a : ℤ) - 1) (b : ℤ)).map (fun st =>
            ((intRange ((c : ℤ) - 1) (d : ℤ)).map
              (fun o => tensorEntry T st.toNat i o.toNat)).sum)).sum / (natoms : ℚ) := by
  have horbs : ∀ o ∈ intRange ((c : ℤ) - 1) (d : ℤ), ∃ ov : ℕ, o = (ov : ℤ) ∧ ov < no := by
    intro o ho
    obtain ⟨h1, h2⟩ := intRange_mem _ _ _ ho
    exact ⟨o.toNat, by omega, by omega⟩
  have hsites : ∀ st ∈ intRange ((a : ℤ) - 1) (b : ℤ), ∃ sn : ℕ, st = (sn : ℤ) ∧ sn < ns := by
    intro st hst
    obtain ⟨h1, h2⟩ := intRange_mem _ _ _ hst
    exact ⟨st.toNat, by omega, by omega⟩
  obtain ⟨dos1, h1, hlen1, hval1⟩ := siteLoop_closed T ns nb no _ hsh horbs
    (intRange ((a : ℤ) - 1) (b : ℤ)) (List.replicate nb 0) (List.length_replicate nb 0) hsites
  refine ⟨dos1.map (fun v => v / (natoms : ℚ)), ?_, by rw [List.length_map, hlen1], ?_⟩
  · rw [calc_pdos_sum]
    simp only [Option.bind_eq_bind]
    rw [h1]
    simp only [Option.some_bind]
  · intro i hi
    rw [getD_map_div dos1 _ i (by omega), hval1 i hi]
    rw [List.getD_eq_getElem?_getD, List.getElem?_replicate_of_lt hi]
    show ((0 : ℚ) + _) / _ = _
    rw [zero_add]

/-- **C2**: ProjectionAggregator postcondition.  For every tensor of shape
`ns × nb × no` and every projection spec whose parsed ranges `(a, b)` and
`(c, d)` satisfy `1 ≤ a ≤ b ≤ ns` and `1 ≤ c ≤ d ≤ no`, the produced
curve at every bin is the sum of `tensor[site][bin][orbital]` over the
zero-based inclusive index ranges `a-1 .. b-1` and `c-1 .. d-1`, divided
by the total atom count `natoms` (the aggregator's `self.natoms`), not by
the number of selected sites.  A degenerate range `a = b` selects exactly
the single zero-based index `a - 1` (second conjunct). -/
theorem calc_pdos_sum_postcondition (T : List (List (List ℚ))) (ns nb no : ℕ)
    (natoms : ℤ) (a b c d : ℕ) (hsh : Shape3 T ns nb no)
    (ha : 1 ≤ a) (hab : a ≤ b) (hb : b ≤ ns) (hc : 1 ≤ c) (hcd : c ≤ d) (hd : d ≤ no) :
    (∃ dos, calc_pdos_sum nb natoms T (a, b) (c, d) = some dos ∧ dos.length = nb ∧
      ∀ i, i < nb → dos.getD i 0
        = ((intRange ((a : ℤ) - 1) (b : ℤ)).map (fun st =>
            ((intRange ((c : ℤ) - 1) (d : ℤ)).map
              (fun o => tensorEntry T st.toNat i o.toNat)).sum)).sum / (natoms : ℚ)) ∧
    (a = b → intRange ((a : ℤ) - 1) (b : ℤ) = [(a : ℤ) - 1]) := by
  constructor
  · exact calc_pdos_sum_inrange T ns nb no natoms a b c d hsh ha hb hc hd
  · intro hab2
    subst hab2
    have h1 : ((a : ℤ) - ((a : ℤ) - 1)).toNat = 1 := by omega
    rw [intRange, h1]
    show [(a : ℤ) - 1 + ((0 : ℕ) : ℤ)] = [(a : ℤ) - 1]
    rw [Int.natCast_zero, add_zero]

/-- Witness for `calc_pdos_sum_postcondition`: the 2-site, 1-bin, 2-orbital
tensor `[[[1,2]],[[3,4]]]` with the degenerate site range `2-2` and full
orbital range `1-2`: the curve is `(3 + 4) / 2 = [7/2]`. -/
theorem calc_pdos_sum_postcondition_witness :
    ((∃ dos, calc_pdos_sum 1 2 [[[1,2]],[[3,4]]] (2, 2) (1, 2) = some dos ∧ dos.length = 1 ∧
      ∀ i, i < 1 → dos.getD i 0
        = ((intRange ((2 : ℤ) - 1) (2 : ℤ)).map (fun st =>
            ((intRange ((1 : ℤ) - 1) (2 : ℤ)).map
              (fun o => tensorEntry [[[1,2]],[[3,4]]] st.toNat i o.toNat)).sum)).sum
          / ((2 : ℤ) : ℚ)) ∧
    (2 = 2 → intRange ((2 : ℤ) - 1) (2 : ℤ) = [(2 : ℤ) - 1])) ∧
    calc_pdos_sum 1 2 [[[1,2]],[[3,4]]] (2, 2) (1, 2) = some [7/2] :=
  ⟨calc_pdos_sum_postcondition [[[1,2]],[[3,4]]] 2 1 2 2 2 2 1 2
      (by decide) (by decide) (by decide) (by decide) (by decide) (by decide) (by decide),
    by decide⟩

theorem intRange_one_cast (n : ℕ) :
    intRange ((1 : ℤ) - 1) (n : ℤ) = (List.range n).map (fun k : ℕ => (k : ℤ)) := by
  have h1 : ((n : ℤ) - ((1 : ℤ) - 1)).toNat = n := by omega
  rw [intRange, h1]
  apply List.map_congr_left
  intro k _
  omega

/-- **C4**: Normalization consistency.  On a tensor whose site count equals
the atom count, aggregating the full site range `[1, natoms]` and the full
orbital range `[1, orbital_count]` yields, at every bin, exactly the sum of
`tensor[site][bin][orbital]` over all sites and all orbitals divided by the
atom count — the same per-atom normalization `read_tdos` applies to the
total DOS. -/
theorem full_range_normalization (T : List (List (List ℚ))) (ns nb no : ℕ)
    (hsh : Shape3 T ns nb no) (hns : 0 < ns) (hno : 0 < no) :
    ∃ dos, calc_pdos_sum nb (ns : ℤ) T (1, ns) (1, no) = some dos ∧ dos.length = nb ∧
      ∀ i, i < nb → dos.getD i 0
        = ((List.range ns).map (fun s =>
            ((List.range no).map (fun o => tensorEntry T s i o)).sum)).sum / ((ns : ℤ) : ℚ) := by
  obtain ⟨dos, hres, hlen, hval⟩ := calc_pdos_sum_inrange T ns nb no (ns : ℤ) 1 ns 1 no hsh
    (Nat.le_refl 1) (Nat.le_refl ns) (Nat.le_refl 1) (Nat.le_refl no)
  refine ⟨dos, hres, hlen, ?_⟩
  intro i hi
  rw [hval i hi, Nat.cast_one, intRange_one_cast ns, intRange_one_cast no]
  simp only [List.map_map, Function.comp_def, Int.toNat_natCast]

/-- Witness for `full_range_normalization`: on the tensor `[[[1,2]],[[3,4]]]`
(2 sites, 1 bin, 2 orbitals) the full-range aggregation is
`(1 + 2 + 3 + 4) / 2 = [5]`. -/
theorem full_range_normalization_witness :
    (∃ dos, calc_pdos_sum 1 ((2 : ℕ) : ℤ) [[[1,2]],[[3,4]]] (1, 2) (1, 2) = some dos ∧
      dos.length = 1 ∧
      ∀ i, i < 1 → dos.getD i 0
        = ((List.range 2).map (fun s =>
            ((List.range 2).map (fun o => tensorEntry [[[1,2]],[[3,4]]] s i o)).sum)).sum
          / (((2 : ℕ) : ℤ) : ℚ)) ∧
    calc_pdos_sum 1 2 [[[1,2]],[[3,4]]] (1, 2) (1, 2) = some [5] :=
  ⟨full_range_normalization [[[1,2]],[[3,4]]] 2 1 2 (by decide) (by decide) (by decide),
    by decide⟩

/-! ## The projection aggregator: empty and out-of-range ranges -/

theorem siteLoop_empty_orbs (T : List (List (List ℚ))) :
    ∀ (sites : List ℤ) (dos : List ℚ), siteLoop T [] sites dos = some dos := by
  intro sites
  induction sites with
  | nil => intro dos; rfl
  | cons st rest ih =>
    intro dos
    rw [siteLoop, orbLoop]
    simp only [Option.bind_eq_bind, Option.some_bind]
    exact ih dos

/-- **C10** (implicit claim): a projection spec whose site range has
`a > b`, or whose orbital range has `c > d`, derives an empty index range;
the aggregator raises no error and returns the all-zero curve of length
`bins`.  (`natoms ≠ 0` keeps the final division meaningful; with
`natoms = 0` numpy would produce NaNs rather than zeros.) -/
theorem empty_range_zero_curve (T : List (List (List ℚ))) (bins : ℕ) (natoms : ℤ)
    (a b c d : ℕ) (hempty : b < a ∨ d < c) (hnat : natoms ≠ 0) :
    calc_pdos_sum bins natoms T (a, b) (c, d) = some (List.replicate bins 0) := by
  have hmap : (List.replicate bins (0 : ℚ)).map (fun v => v / (natoms : ℚ))
      = List.replicate bins 0 := by
    rw [List.map_replicate, zero_div]
  rcases hempty with h | h
  · have hsites : intRange ((a : ℤ) - 1) (b : ℤ) = [] := by
      have h0 : ((b : ℤ) - ((a : ℤ) - 1)).toNat = 0 := by omega
      rw [intRange, h0]
      rfl
    rw [calc_pdos_sum]
    simp only [Option.bind_eq_bind]
    rw [hsites, siteLoop]
    simp only [Option.some_bind]
    rw [hmap]
  · have horbs : intRange ((c : ℤ) - 1) (d : ℤ) = [] := by
      have h0 : ((d : ℤ) - ((c : ℤ) - 1)).toNat = 0 := by omega
      rw [intRange, h0]
      rfl
    rw [calc_pdos_sum]
    simp only [Option.bind_eq_bind]
    rw [horbs, siteLoop_empty_orbs]
    simp only [Option.some_bind]
    rw [hmap]

/-- Witness for `empty_range_zero_curve`: site range `3-2` (empty) over a
2-site tensor with 2 requested bins yields `[0, 0]` without error; orbital
range `5-2` (empty) likewise yields `[0]` even though its bounds exceed the
orbital count. -/
theorem empty_range_zero_curve_witness :
    calc_pdos_sum 2 5 [[[1,2]],[[3,4]]] (3, 2) (1, 2) = some [0, 0] ∧
    calc_pdos_sum 1 2 [[[1]],[[2]]] (1, 2) (5, 2) = some [0] :=
  ⟨empty_range_zero_curve [[[1,2]],[[3,4]]] 2 5 3 2 1 2 (Or.inl (by decide)) (by decide),
    empty_range_zero_curve [[[1]],[[2]]] 1 2 1 2 5 2 (Or.inr (by decide)) (by decide)⟩

theorem npIndex_lt (n : ℕ) (x : ℤ) (j : ℕ) (h : npIndex n x = some j) : j < n := by
  rw [npIndex] at h
  split at h
  · next h1 => injection h with h'; omega
  · split at h
    · next h2 => injection h with h'; omega
    · exact absurd h (by simp)

theorem npIndex_none_of_cast_le (n : ℕ) (x : ℤ) (h : (n : ℤ) ≤ x) : npIndex n x = none := by
  rw [npIndex, if_neg (by omega), if_neg (by omega)]

theorem orbLoop_none_bad_site (T : List (List (List ℚ))) (site : ℤ)
    (hbad : npIndex T.length site = none) (o : ℤ) (rest : List ℤ) (dos : List ℚ) :
    orbLoop T site (o :: rest) dos = none := by
  rw [orbLoop, npColumn, hbad]
  rfl

theorem orbLoop_none_bad_orb (T : List (List (List ℚ))) (ns nb no : ℕ)
    (hsh : Shape3 T ns nb no) (hnb : 0 < nb) (site : ℤ) (s : ℕ)
    (hsite : npIndex T.length site = some s) :
    ∀ (orbs : List ℤ) (dos : List ℚ), (∃ o ∈ orbs, npIndex no o = none) →
      orbLoop T site orbs dos = none := by
  have hT : T.length = ns := hsh.1
  have hslt : s < ns := by
    have := npIndex_lt T.length site s hsite
    omega
  have hmatlen : (T.getD s []).length = nb := shape3_mat_length hsh hslt
  obtain ⟨r0, mrest, hmat⟩ : ∃ r0 mrest, T.getD s [] = r0 :: mrest := by
    cases hm : T.getD s [] with
    | nil => rw [hm] at hmatlen; simp at hmatlen; omega
    | cons x y => exact ⟨x, y, rfl⟩
  have hr0len : r0.length = no := by
    have hmem : T.getD s [] ∈ T := getD_mem_of_lt T [] s (by omega)
    exact (hsh.2 _ hmem).2 r0 (by rw [hmat]; exact List.mem_cons_self r0 mrest)
  intro orbs
  induction orbs with
  | nil =>
    intro dos hbad
    obtain ⟨o, ho, _⟩ := hbad
    cases ho
  | cons o rest ih =>
    intro dos hbad
    by_cases hfail : npIndex no o = none
    · rw [orbLoop, npColumn, hsite]
      simp only [Option.bind_eq_bind, Option.some_bind, hmat, List.mapM_cons, hr0len, hfail]
      rfl
    · obtain ⟨o2, ho2, hbad2⟩ := hbad
      have ho2r : o2 ∈ rest := by
        rcases List.mem_cons.mp ho2 with h | h
        · exact absurd (h ▸ hbad2) hfail
        · exact h
      rw [orbLoop]
      cases hcol : npColumn T site o with
      | none => rfl
      | some col =>
        simp only [Option.bind_eq_bind, Option.some_bind]
        cases hadd : vecAdd dos col with
        | none => rfl
        | some dos2 =>
          simp only [Option.some_bind]
          exact ih dos2 ⟨o2, ho2r, hbad2⟩

theorem siteLoop_none_bad_orb (T : List (List (List ℚ))) (ns nb no : ℕ)
    (hsh : Shape3 T ns nb no) (hnb : 0 < nb) (orbs : List ℤ)
    (hbadorb : ∃ o ∈ orbs, npIndex no o = none) (st : ℤ) (rest : List ℤ) (dos : List ℚ) :
    siteLoop T orbs (st :: rest) dos = none := by
  obtain ⟨o1, orest, horbs⟩ : ∃ o1 orest, orbs = o1 :: orest := by
    cases orbs with
    | nil => obtain ⟨o, ho, _⟩ := hbadorb; cases ho
    | cons x y => exact ⟨x, y, rfl⟩
  rw [siteLoop]
  cases hst : npIndex T.length st with
  | none =>
    rw [horbs, orbLoop_none_bad_site T st hst o1 orest dos]
    rfl
  | some s =>
    rw [orbLoop_none_bad_orb T ns nb no hsh hnb st s hst orbs dos hbadorb]
    rfl

theorem siteLoop_none_bad_site (T : List (List (List ℚ))) (orbs : List ℤ)
    (o1 : ℤ) (orest : List ℤ) (horbs : orbs = o1 :: orest) :
    ∀ (sites : List ℤ) (dos : List ℚ), (∃ st ∈ sites, npIndex T.length st = none) →
      siteLoop T orbs sites dos = none := by
  intro sites
  induction sites with
  | nil =>
    intro dos hbad
    obtain ⟨st, hm, _⟩ := hbad
    cases hm
  | cons st rest ih =>
    intro dos hbad
    by_cases hst : npIndex T.length st = none
    · rw [siteLoop, horbs, orbLoop_none_bad_site T st hst o1 orest dos]
      rfl
    · obtain ⟨st2, hm2, hbad2⟩ := hbad
      have hst2r : st2 ∈ rest := by
        rcases List.mem_cons.mp hm2 with h | h
        · exact absurd (h ▸ hbad2) hst
        · exact h
      rw [siteLoop]
      cases horb : orbLoop T st orbs dos with
      | none => rfl
      | some dos1 =>
        simp only [Option.bind_eq_bind, Option.some_bind]
        exact ih dos1 ⟨st2, hst2r, hbad2⟩

theorem intRange_mem_intro (lo hi x : ℤ) (h1 : lo ≤ x) (h2 : x < hi) :
    x ∈ intRange lo hi := by
  rw [intRange]
  refine List.mem_map.mpr ⟨(x - lo).toNat, ?_, by omega⟩
  rw [List.mem_range]
  omega

theorem intRange_cons (lo hi : ℤ) (h : lo < hi) :
    ∃ rest, intRange lo hi = lo :: rest := by
  have h1 : (hi - lo).toNat = (hi - lo - 1).toNat + 1 := by omega
  rw [intRange, h1, List.range_succ_eq_map, List.map_cons]
  rw [show lo + ((0 : ℕ) : ℤ) = lo by rw [Int.natCast_zero, add_zero]]
  exact ⟨_, rfl⟩

/-- **C5** (amended): a projection spec whose upper bound exceeds the
corresponding tensor extent (with nonempty 1-based ranges and at least one
bin) makes the aggregator fail with numpy's index-out-of-range error.  The
claim as frozen also asserted failure for a lower bound below 1, but a
lower bound of 0 silently WRAPS via numpy negative indexing instead (see
the counterexample), so only the upper-bound half survives. -/
theorem calc_pdos_sum_out_of_range (T : List (List (List ℚ))) (ns nb no : ℕ)
    (natoms : ℤ) (a b c d : ℕ) (hsh : Shape3 T ns nb no) (hnb : 0 < nb)
    (ha : 1 ≤ a) (hab : a ≤ b) (hc : 1 ≤ c) (hcd : c ≤ d)
    (hoob : ns < b ∨ no < d) :
    calc_pdos_sum nb natoms T (a, b) (c, d) = none := by
  have hT : T.length = ns := hsh.1
  obtain ⟨orest, horbs⟩ := intRange_cons ((c : ℤ) - 1) (d : ℤ) (by omega)
  obtain ⟨srest, hsites⟩ := intRange_cons ((a : ℤ) - 1) (b : ℤ) (by omega)
  rcases hoob with h | h
  · have hbadsite : ∃ st ∈ intRange ((a : ℤ) - 1) (b : ℤ), npIndex T.length st = none := by
      refine ⟨(b : ℤ) - 1, intRange_mem_intro _ _ _ (by omega) (by omega), ?_⟩
      exact npIndex_none_of_cast_le T.length _ (by omega)
    rw [calc_pdos_sum]
    simp only [Option.bind_eq_bind]
    rw [siteLoop_none_bad_site T _ _ _ horbs _ _ hbadsite]
    rfl
  · have hbadorb : ∃ o ∈ intRange ((c : ℤ) - 1) (d : ℤ), npIndex no o = none := by
      refine ⟨(d : ℤ) - 1, intRange_mem_intro _ _ _ (by omega) (by omega), ?_⟩
      exact npIndex_none_of_cast_le no _ (by omega)
    rw [calc_pdos_sum]
    simp only [Option.bind_eq_bind]
    rw [hsites, siteLoop_none_bad_orb T ns nb no hsh hnb _ hbadorb]
    rfl

/-- Counterexample refuting **C5** as frozen: the spec site range `0-1`
lies outside `[1, 2]` on this 2-site tensor, yet the aggregator raises no
error — Python's `range(-1, 1)` yields sites `-1` and `0`, and numpy's
negative indexing silently wraps `-1` to the LAST site, so the curve
`(1 + 2) / 2 = [3/2]` is returned instead of an index-out-of-range
failure. -/
theorem calc_pdos_sum_wrap_cex :
    calc_pdos_sum 1 2 [[[1]],[[2]]] (0, 1) (1, 1) = some [3/2] := by decide

/-- Witness for `calc_pdos_sum_out_of_range`: site range `1-999` on a
10-atom structure (10-site tensor, 1 bin, 1 orbital) raises the
index-out-of-range error. -/
theorem calc_pdos_sum_out_of_range_witness :
    calc_pdos_sum 1 10 (List.replicate 10 [[0]]) (1, 999) (1, 1) = none :=
  calc_pdos_sum_out_of_range (List.replicate 10 [[0]]) 10 1 1 10 1 999 1 1
    (by decide) (by decide) (by decide) (by decide) (by decide) (by decide)
    (Or.inl (by decide))

/-! ## The projected-DOS reader: tensor-fill closed form -/

theorem getD_drop_shift (l : List (List ℚ)) (n j : ℕ) :
    (l.drop n).getD j [] = l.getD (n + j) [] := by
  rw [List.getD_eq_getElem?_getD, List.getD_eq_getElem?_getD, List.getElem?_drop]

theorem getD_take_lt (l : List (List ℚ)) (n j : ℕ) (h : j < n) :
    (l.take n).getD j [] = l.getD j [] := by
  rw [List.getD_eq_getElem?_getD, List.getD_eq_getElem?_getD, List.getElem?_take_of_lt h]

theorem foldl_set_length (f : ℕ → ℚ) :
    ∀ (n : ℕ) (r : List ℚ),
      ((List.range n).foldl (fun r col => r.set col (f col)) r).length = r.length := by
  intro n
  induction n with
  | zero => intro r; rfl
  | succ m ih =>
    intro r
    rw [List.range_succ, List.foldl_append, List.foldl_cons, List.foldl_nil,
      List.length_set, ih r]

theorem foldl_set_getElem (f : ℕ → ℚ) :
    ∀ (n : ℕ) (r : List ℚ) (j : ℕ),
      ((List.range n).foldl (fun r col => r.set col (f col)) r)[j]?
        = if j < n ∧ j < r.length then some (f j) else r[j]? := by
  intro n
  induction n with
  | zero =>
    intro r j
    rw [if_neg (by omega)]
    rfl
  | succ m ih =>
    intro r j
    rw [List.range_succ, List.foldl_append, List.foldl_cons, List.foldl_nil,
      List.getElem?_set, foldl_set_length]
    by_cases hj : m = j
    · subst hj
      rw [if_pos rfl]
      by_cases hm : m < r.length
      · rw [if_pos hm, if_pos ⟨by omega, hm⟩]
      · rw [if_neg hm, if_neg (by omega), List.getElem?_eq_none (by omega)]
    · rw [if_neg hj, ih r j]
      by_cases hjm : j < m ∧ j < r.length
      · rw [if_pos hjm, if_pos ⟨by omega, hjm.2⟩]
      · rw [if_neg hjm, if_neg (by omega)]

theorem writeRow_shape {T : List (List (List ℚ))} {ns nb no : ℕ}
    (hsh : Shape3 T ns nb no) {s nbin : ℕ} (hs : s < ns) (hb : nbin < nb) (p : List ℚ) :
    Shape3 (writeRow T s nbin no p) ns nb no := by
  obtain ⟨hlen, hmem⟩ := hsh
  have hmat : T.getD s [] ∈ T := getD_mem_of_lt T [] s (by omega)
  have hmatlen : (T.getD s []).length = nb := (hmem _ hmat).1
  have hrow : (T.getD s []).getD nbin [] ∈ T.getD s [] := getD_mem_of_lt _ [] nbin (by omega)
  have hrowlen : ((T.getD s []).getD nbin []).length = no := (hmem _ hmat).2 _ hrow
  constructor
  · rw [writeRow, List.length_set, hlen]
  · intro m hm
    rw [writeRow] at hm
    rcases List.mem_or_eq_of_mem_set hm with h | h
    · exact hmem m h
    · subst h
      constructor
      · rw [List.length_set, hmatlen]
      · intro r hr
        rcases List.mem_or_eq_of_mem_set hr with h2 | h2
        · exact (hmem _ hmat).2 r h2
        · subst h2
          rw [foldl_set_length, hrowlen]

theorem tget_writeRow_self {T : List (List (List ℚ))} {ns nb no : ℕ}
    (hsh : Shape3 T ns nb no) {s nbin : ℕ} (hs : s < ns) (hb : nbin < nb) (p : List ℚ)
    {o : ℕ} (ho : o < no) :
    tget (writeRow T s nbin no p) s nbin o = some (p.getD (o + 1) 0) := by
  have hmat : T.getD s [] ∈ T := getD_mem_of_lt T [] s (by rw [hsh.1]; omega)
  have hmatlen : (T.getD s []).length = nb := (hsh.2 _ hmat).1
  have hrow : (T.getD s []).getD nbin [] ∈ T.getD s [] := getD_mem_of_lt _ [] nbin (by omega)
  have hrowlen : ((T.getD s []).getD nbin []).length = no := (hsh.2 _ hmat).2 _ hrow
  rw [writeRow, tget, List.getElem?_set_self (by rw [hsh.1]; omega)]
  simp only [Option.some_bind]
  rw [List.getElem?_set_self (by rw [hmatlen]; omega)]
  simp only [Option.some_bind]
  rw [foldl_set_getElem, if_pos ⟨ho, by rw [hrowlen]; omega⟩]

theorem tget_writeRow_other (T : List (List (List ℚ))) (s nbin no : ℕ) (p : List ℚ)
    (s2 b2 o2 : ℕ) (hne : s2 ≠ s ∨ b2 ≠ nbin) :
    tget (writeRow T s nbin no p) s2 b2 o2 = tget T s2 b2 o2 := by
  by_cases hs2 : s = s2
  · subst hs2
    have hb : b2 ≠ nbin := by
      rcases hne with h | h
      · exact absurd rfl h
      · exact h
    rw [tget, tget, writeRow, List.getElem?_set, if_pos rfl]
    by_cases hlt : s < T.length
    · rw [if_pos hlt]
      simp only [Option.some_bind]
      rw [List.getElem?_set_ne (fun heq => hb heq.symm)]
      have hT : T[s]? = some (T.getD s []) := by
        rw [List.getD_eq_getElem?_getD, List.getElem?_eq_getElem hlt]
        rfl
      rw [hT]
      rfl
    · rw [if_neg hlt, List.getElem?_eq_none (by omega)]
  · rw [tget, tget, writeRow, List.getElem?_set_ne hs2]

theorem writeRowsAux_shape {ns nb no : ℕ} {s : ℕ} (hs : s < ns) :
    ∀ (rows : List (List ℚ)) (n0 : ℕ) (T : List (List (List ℚ))),
      Shape3 T ns nb no → n0 + rows.length ≤ nb →
      Shape3 (writeRowsAux s no rows n0 T) ns nb no := by
  intro rows
  induction rows with
  | nil => intro n0 T hsh _; exact hsh
  | cons p rest ih =>
    intro n0 T hsh hle
    rw [List.length_cons] at hle
    rw [writeRowsAux]
    exact ih (n0 + 1) _ (writeRow_shape hsh hs (by omega) p) (by omega)

theorem writeRowsAux_tget {ns nb no : ℕ} {s : ℕ} (hs : s < ns) :
    ∀ (rows : List (List ℚ)) (n0 : ℕ) (T : List (List (List ℚ))),
      Shape3 T ns nb no → n0 + rows.length ≤ nb →
      ∀ s2 b o, b < nb → o < no →
        tget (writeRowsAux s no rows n0 T) s2 b o
          = if s2 = s ∧ n0 ≤ b ∧ b < n0 + rows.length
            then some ((rows.getD (b - n0) []).getD (o + 1) 0)
            else tget T s2 b o := by
  intro rows
  induction rows with
  | nil =>
    intro n0 T hsh hle s2 b o hb ho
    rw [writeRowsAux, if_neg (by rintro ⟨_, h1, h2⟩; simp at h2; omega)]
  | cons p rest ih =>
    intro n0 T hsh hle s2 b o hb ho
    rw [List.length_cons] at hle
    rw [writeRowsAux,
      ih (n0 + 1) _ (writeRow_shape hsh hs (by omega) p) (by omega) s2 b o hb ho]
    by_cases h1 : s2 = s ∧ n0 + 1 ≤ b ∧ b < n0 + 1 + rest.length
    · rw [if_pos h1, if_pos ⟨h1.1, by omega, by rw [List.length_cons]; omega⟩]
      have hshift : b - n0 = (b - (n0 + 1)) + 1 := by omega
      rw [hshift]
      rfl
    · rw [if_neg h1]
      by_cases h2 : s2 = s ∧ b = n0
      · obtain ⟨hs2, hb0⟩ := h2
        subst hs2
        subst hb0
        rw [tget_writeRow_self hsh hs (by omega) p ho,
          if_pos ⟨rfl, Nat.le_refl _, by rw [List.length_cons]; omega⟩, Nat.sub_self]
        rfl
      · rw [tget_writeRow_other T s n0 no p s2 b o (by tauto),
          if_neg (by rw [List.length_cons]; rintro ⟨ha2, hb2, hc2⟩; exact h2 ⟨ha2, by omega⟩)]

theorem pdosLoop_nbin_irrel (B1 natoms bins no : ℕ) (plines : List (List ℚ)) (i : ℕ)
    (h : i % B1 = 0 ∨ plines = []) (nbin1 nbin2 : ℕ) (T : List (List (List ℚ))) :
    pdosLoop B1 natoms bins no plines i nbin1 T
      = pdosLoop B1 natoms bins no plines i nbin2 T := by
  rcases h with h | h
  · cases plines with
    | nil => rfl
    | cons p rest => simp only [pdosLoop, if_pos h]
  · subst h
    rfl

theorem pdosLoop_rows_eq (natoms bins no : ℕ) (s : ℕ) (hs : s < natoms) :
    ∀ (rows rest : List (List ℚ)) (n0 : ℕ) (T : List (List (List ℚ))),
      n0 + rows.length ≤ bins →
      (∀ p ∈ rows, no + 1 ≤ p.length) →
      pdosLoop (bins + 1) natoms bins no (rows ++ rest) (s * (bins + 1) + 1 + n0) n0 T
        = pdosLoop (bins + 1) natoms bins no rest
            (s * (bins + 1) + 1 + n0 + rows.length) (n0 + rows.length)
            (writeRowsAux s no rows n0 T) := by
  intro rows
  induction rows with
  | nil =>
    intro rest n0 T _ _
    rw [List.nil_append, writeRowsAux]
    norm_num
  | cons p prest ih =>
    intro rest n0 T hle hrows
    rw [List.length_cons] at hle
    have hmod : (s * (bins + 1) + 1 + n0) % (bins + 1) = 1 + n0 := by
      have h1 : s * (bins + 1) + 1 + n0 = (1 + n0) + s * (bins + 1) := by ring
      rw [h1, Nat.add_mul_mod_self_right]
      exact Nat.mod_eq_of_lt (by omega)
    have hdiv : (s * (bins + 1) + 1 + n0) / (bins + 1) = s := by
      have h1 : s * (bins + 1) + 1 + n0 = (1 + n0) + s * (bins + 1) := by ring
      rw [h1, Nat.add_mul_div_right _ _ (by omega : 0 < bins + 1),
        Nat.div_eq_of_lt (by omega), Nat.zero_add]
    rw [List.cons_append]
    show (if (s * (bins + 1) + 1 + n0) % (bins + 1) = 0 then
        pdosLoop (bins + 1) natoms bins no (prest ++ rest) (s * (bins + 1) + 1 + n0 + 1) 0 T
      else if (s * (bins + 1) + 1 + n0) / (bins + 1) < natoms ∧ n0 < bins ∧ no + 1 ≤ p.length then
        pdosLoop (bins + 1) natoms bins no (prest ++ rest) (s * (bins + 1) + 1 + n0 + 1) (n0 + 1)
          (writeRow T ((s * (bins + 1) + 1 + n0) / (bins + 1)) n0 no p)
      else none) = _
    rw [hmod, hdiv, if_neg (by omega),
      if_pos ⟨hs, by omega, hrows p (List.mem_cons_self p prest)⟩]
    have hidx : s * (bins + 1) + 1 + n0 + 1 = s * (bins + 1) + 1 + (n0 + 1) := by omega
    rw [hidx, ih rest (n0 + 1) (writeRow T s n0 no p) (by omega)
      (fun q hq => hrows q (List.mem_cons_of_mem p hq))]
    rw [writeRowsAux]
    congr 1 <;> rw [List.length_cons] <;> omega

/-- Closed form of the tensor-filling loop of `read_pdos`: on a projected
block of exactly `k` segments of `bins + 1` lines each (starting at the
line offset of segment `s0`), whose data rows all carry at least
`no + 1` tokens, the loop succeeds and stores, for segment `s`, bin `b`,
orbital `o`, the token at column `o + 1` of the block line at offset
`(s - s0) * (bins + 1) + 1 + b` — i.e. site index = line offset divided by
`bins + 1`, separator lines discarded and never stored. -/
theorem pdosLoop_closed (natoms bins no : ℕ) (hbins : 0 < bins) :
    ∀ (k s0 : ℕ) (plines : List (List ℚ)) (T : List (List (List ℚ))),
      plines.length = k * (bins + 1) →
      (∀ j, j < plines.length → j % (bins + 1) ≠ 0 → no + 1 ≤ (plines.getD j []).length) →
      s0 + k ≤ natoms → Shape3 T natoms bins no →
      ∃ T2, pdosLoop (bins + 1) natoms bins no plines (s0 * (bins + 1)) 0 T = some T2 ∧
        Shape3 T2 natoms bins no ∧
        ∀ s b o, b < bins → o < no →
          tget T2 s b o = if s0 ≤ s ∧ s < s0 + k
            then some ((plines.getD ((s - s0) * (bins + 1) + 1 + b) []).getD (o + 1) 0)
            else tget T s b o := by
  intro k
  induction k with
  | zero =>
    intro s0 plines T hlen hline hsk hsh
    have hnil : plines = [] := List.length_eq_zero.mp (by rw [hlen, Nat.zero_mul])
    subst hnil
    exact ⟨T, rfl, hsh, fun s b o hb ho => by rw [if_neg (by omega)]⟩
  | succ k ih =>
    intro s0 plines T hlen hline hsk hsh
    have hmul : (k + 1) * (bins + 1) = k * (bins + 1) + (bins + 1) := by ring
    obtain ⟨sep, tail, hsep⟩ : ∃ sep tail, plines = sep :: tail := by
      cases plines with
      | nil => simp at hlen
      | cons a t => exact ⟨a, t, rfl⟩
    have hplen : plines.length = tail.length + 1 := by rw [hsep]; rfl
    have htail : tail.length = bins + k * (bins + 1) := by omega
    have hrows_len : (tail.take bins).length = bins := by rw [List.length_take]; omega
    have hrest_len : (tail.drop bins).length = k * (bins + 1) := by rw [List.length_drop]; omega
    have hrowlens : ∀ p ∈ tail.take bins, no + 1 ≤ p.length := by
      intro p hp
      obtain ⟨j, hj, hget⟩ := List.mem_iff_getElem.mp hp
      have hjb : j < bins := by rw [hrows_len] at hj; exact hj
      have h1 : (tail.take bins).getD j [] = p := by
        rw [List.getD_eq_getElem?_getD, List.getElem?_eq_getElem hj]
        exact hget
      have h2 : (tail.take bins).getD j [] = plines.getD (j + 1) [] := by
        rw [getD_take_lt tail bins j hjb, hsep]
        rfl
      have h3 := hline (j + 1) (by omega) (by
        have : (j + 1) % (bins + 1) = j + 1 := Nat.mod_eq_of_lt (by omega)
        omega)
      rw [← h2, h1] at h3
      exact h3
    have hs0 : s0 < natoms := by omega
    have hW := writeRowsAux_shape hs0 (tail.take bins) 0 T hsh (by omega)
    have hline2 : ∀ j, j < (tail.drop bins).length → j % (bins + 1) ≠ 0 →
        no + 1 ≤ ((tail.drop bins).getD j []).length := by
      intro j hj hjm
      have h1 : (tail.drop bins).getD j [] = plines.getD (bins + 1 + j) [] := by
        rw [getD_drop_shift tail bins j, hsep]
        have hswap : bins + 1 + j = (bins + j) + 1 := by omega
        rw [hswap]
        rfl
      rw [h1]
      apply hline (bins + 1 + j) (by omega)
      have : (bins + 1 + j) % (bins + 1) = j % (bins + 1) := Nat.add_mod_left (bins + 1) j
      omega
    obtain ⟨T2, hT2, hsh2, hval2⟩ := ih (s0 + 1) (tail.drop bins)
      (writeRowsAux s0 no (tail.take bins) 0 T) hrest_len hline2 (by omega) hW
    refine ⟨T2, ?_, hsh2, ?_⟩
    · rw [hsep]
      have hstep : pdosLoop (bins + 1) natoms bins no (sep :: tail) (s0 * (bins + 1)) 0 T
          = pdosLoop (bins + 1) natoms bins no tail (s0 * (bins + 1) + 1) 0 T := by
        simp only [pdosLoop, if_pos (Nat.mul_mod_left s0 (bins + 1))]
      rw [hstep]
      have htail2 : tail = tail.take bins ++ tail.drop bins :=
        (List.take_append_drop bins tail).symm
      rw [htail2, show s0 * (bins + 1) + 1 = s0 * (bins + 1) + 1 + 0 from rfl,
        pdosLoop_rows_eq natoms bins no s0 hs0 (tail.take bins) (tail.drop bins) 0 T
          (by omega) hrowlens, hrows_len]
      have hidx : s0 * (bins + 1) + 1 + 0 + bins = (s0 + 1) * (bins + 1) := by ring
      rw [hidx, pdosLoop_nbin_irrel (bins + 1) natoms bins no (tail.drop bins)
        ((s0 + 1) * (bins + 1)) (Or.inl (Nat.mul_mod_left (s0 + 1) (bins + 1))) (0 + bins) 0]
      exact hT2
    · intro s b o hb ho
      rw [hval2 s b o hb ho]
      by_cases hcase : s0 + 1 ≤ s ∧ s < s0 + 1 + k
      · rw [if_pos hcase, if_pos (⟨by omega, by omega⟩ : s0 ≤ s ∧ s < s0 + (k + 1))]
        congr 1
        rw [getD_drop_shift, hsep]
        have hswap : (s - s0) * (bins + 1) + 1 + b
            = (bins + ((s - (s0 + 1)) * (bins + 1) + 1 + b)) + 1 := by
          have h1 : s - s0 = (s - (s0 + 1)) + 1 := by omega
          rw [h1]
          ring
        rw [hswap]
        rfl
      · rw [if_neg hcase]
        by_cases hseg : s = s0
        · subst hseg
          rw [writeRowsAux_tget hs0 (tail.take bins) 0 T hsh (by omega) s b o hb ho,
            if_pos ⟨rfl, Nat.zero_le b, by omega⟩, if_pos ⟨Nat.le_refl s, by omega⟩]
          congr 1
          rw [Nat.sub_zero, getD_take_lt tail bins b hb, hsep]
          have hb1 : (s - s) * (bins + 1) + 1 + b = b + 1 := by
            rw [Nat.sub_self]
            ring
          rw [hb1]
          rfl
        · rw [writeRowsAux_tget hs0 (tail.take bins) 0 T hsh (by omega) s b o hb ho,
            if_neg (fun h => hseg h.1),
            if_neg (by rintro ⟨h1, h2⟩; exact hcase ⟨by omega, by omega⟩)]

theorem ratToInt_natCast (n : ℕ) : ratToInt ((n : ℚ)) = some (n : ℤ) := by
  simp [ratToInt]

/-- Forward evaluation of `read_pdos` on a well-formed main data file: with
the same header as `read_tdos_spec` and a projected block of exactly
`natoms` segments of `bins + 1` lines whose data rows carry `ncol + 1`
tokens each, the reader succeeds; the tensor has shape
`natoms × bins × ncol` and holds the raw tokens, unnormalized. -/
theorem read_pdos_spec (spin0 : Bool) (d : List (List ℚ)) (line0 : List ℚ)
    (natoms bins ncol : ℕ) (maxE minE fermi w : ℚ)
    (h0 : d[0]? = some line0) (h0t : line0[0]? = some ((natoms : ℚ)))
    (h5 : d[5]? = some [maxE, minE, (bins : ℚ), fermi, w])
    (hnat : 0 < natoms) (hbins : 0 < bins)
    (hplen : (d.drop (bins + 6)).length = natoms * (bins + 1))
    (hline : ∀ j, j < (d.drop (bins + 6)).length → j % (bins + 1) ≠ 0 →
      ((d.drop (bins + 6)).getD j []).length = ncol + 1) :
    ∃ pd, read_pdos spin0 d = some pd ∧
      pd.natoms = (natoms : ℤ) ∧ pd.bins = bins ∧ pd.fermi = fermi ∧ pd.ncol = ncol ∧
      pd.spin = (spin0 || decide (ncol = 2 ∨ ncol = 8 ∨ ncol = 18)) ∧
      pd.en.length = bins ∧
      (∀ i, i < bins →
        pd.en[i]? = some (((d.drop (bins + 6)).getD (i + 1) []).getD 0 0 - fermi)) ∧
      Shape3 pd.pdos natoms bins ncol ∧
      (∀ s b o, s < natoms → b < bins → o < ncol →
        tget pd.pdos s b o
          = some (((d.drop (bins + 6)).getD (s * (bins + 1) + 1 + b) []).getD (o + 1) 0)) := by
  have hp1 : bins + 1 ≤ (d.drop (bins + 6)).length := by
    rw [hplen]
    exact Nat.le_mul_of_pos_left _ hnat
  have hfirstlen : ((d.drop (bins + 6)).getD 1 []).length = ncol + 1 := by
    apply hline 1 (by omega)
    rw [Nat.mod_eq_of_lt (by omega)]
    omega
  have hfirstsome : (d.drop (bins + 6))[1]? = some ((d.drop (bins + 6)).getD 1 []) := by
    rw [List.getD_eq_getElem?_getD, List.getElem?_eq_getElem (by omega)]
    rfl
  have hrl : (((d.drop (bins + 6)).drop 1).take bins).length = bins := by
    rw [List.length_take, List.length_drop]
    omega
  have hrowget : ∀ j, j < bins →
      (((d.drop (bins + 6)).drop 1).take bins).getD j [] = (d.drop (bins + 6)).getD (j + 1) [] := by
    intro j hj
    rw [getD_take_lt _ bins j hj, getD_drop_shift, Nat.add_comm 1 j]
  have hmapM : (((d.drop (bins + 6)).drop 1).take bins).mapM (fun p => do
      let e0 ← p[0]?
      some (e0 - fermi))
      = some ((((d.drop (bins + 6)).drop 1).take bins).map (fun p => p.getD 0 0 - fermi)) := by
    apply mapM_eq_map_some
    intro p hp
    obtain ⟨j, hj, hget⟩ := List.mem_iff_getElem.mp hp
    have hjb : j < bins := by rw [hrl] at hj; exact hj
    have hpeq : (((d.drop (bins + 6)).drop 1).take bins).getD j [] = p := by
      rw [List.getD_eq_getElem?_getD, List.getElem?_eq_getElem hj]
      exact hget
    have hplen2 : p.length = ncol + 1 := by
      rw [← hpeq, hrowget j hjb]
      apply hline (j + 1) (by omega)
      rw [Nat.mod_eq_of_lt (by omega)]
      omega
    have hp0 : p[0]? = some (p.getD 0 0) := by
      rw [List.getD_eq_getElem?_getD, List.getElem?_eq_getElem (by omega)]
      rfl
    rw [hp0]
    rfl
  have hshInit : Shape3 (List.replicate natoms (List.replicate bins (List.replicate ncol (0 : ℚ))))
      natoms bins ncol := by
    refine ⟨List.length_replicate _ _, ?_⟩
    intro m hm
    rw [(List.mem_replicate.mp hm).2]
    refine ⟨List.length_replicate _ _, ?_⟩
    intro r hr
    rw [(List.mem_replicate.mp hr).2]
    exact List.length_replicate _ _
  obtain ⟨T2, hT2, hsh2, hval2⟩ := pdosLoop_closed natoms bins ncol hbins natoms 0
    (d.drop (bins + 6)) (List.replicate natoms (List.replicate bins (List.replicate ncol (0 : ℚ))))
    hplen (fun j hj hjm => by rw [hline j hj hjm]) (by omega) hshInit
  rw [Nat.zero_mul] at hT2
  have hread : read_pdos spin0 d = some ⟨((natoms : ℕ) : ℤ), bins, fermi, ncol,
      spin0 || decide (ncol = 2 ∨ ncol = 8 ∨ ncol = 18),
      (((d.drop (bins + 6)).drop 1).take bins).map (fun p => p.getD 0 0 - fermi), T2⟩ := by
    simp only [Option.bind_eq_bind] at hmapM
    simp only [read_pdos, h0, h5, h0t, Option.bind_eq_bind, Option.some_bind,
      ratToInt_natCast, pyInt_natCast, Int.toNat_natCast]
    rw [if_neg (not_lt.mpr (Int.natCast_nonneg bins)), hfirstsome]
    simp only [Option.some_bind]
    rw [hfirstlen, if_neg (Nat.succ_ne_zero ncol)]
    simp only [Nat.add_sub_cancel]
    rw [if_neg (not_lt.mpr (Int.natCast_nonneg natoms))]
    rw [hmapM]
    simp only [Option.some_bind]
    rw [hrl, Nat.sub_self]
    rw [hT2]
    simp only [Option.some_bind, List.replicate, List.append_nil]
  refine ⟨_, hread, rfl, rfl, rfl, rfl, rfl, ?_, ?_, hsh2, ?_⟩
  · show ((((d.drop (bins + 6)).drop 1).take bins).map _).length = bins
    rw [List.length_map]
    exact hrl
  · intro i hi
    show ((((d.drop (bins + 6)).drop 1).take bins).map _)[i]? = _
    rw [List.getElem?_map]
    have : (((d.drop (bins + 6)).drop 1).take bins)[i]?
        = some ((((d.drop (bins + 6)).drop 1).take bins).getD i []) := by
      rw [List.getD_eq_getElem?_getD, List.getElem?_eq_getElem (by omega)]
      rfl
    rw [this, Option.map_some', hrowget i hi]
  · intro s b o hs hb ho
    show tget T2 s b o = _
    rw [hval2 s b o hb ho, if_pos ⟨Nat.zero_le s, by omega⟩, Nat.sub_zero]

/-- **C3**: shape and indexing postcondition of the readers.  On a
well-formed main data file, `read_tdos` succeeds with an energy array of
length `bin_count`, and `read_pdos` succeeds with a tensor of shape
`atom_count × bin_count × orbital_count` in which the entry for site `s`,
bin `b`, orbital `o` is the token at column `o + 1` of the projected-block
line at running offset `s * (bin_count + 1) + 1 + b` — so each segment's
site index is the integer division of the line offset by `bin_count + 1`,
the within-segment bin index resets at each separator line (which is
discarded, never stored), and increments once per retained data row. -/
theorem readers_shape_and_indexing (spin0 spin1 : Bool) (d : List (List ℚ)) (line0 : List ℚ)
    (natoms bins ncolT ncolP : ℕ) (maxE minE fermi w : ℚ) (rows : List (List ℚ))
    (h0 : d[0]? = some line0) (h0t : line0[0]? = some ((natoms : ℚ)))
    (h5 : d[5]? = some [maxE, minE, (bins : ℚ), fermi, w])
    (hrows : rows = (d.drop 6).take bins)
    (hlen : bins ≤ (d.drop 6).length)
    (hcol : ∀ t ∈ rows, t.length = ncolT + 1)
    (hnat : 0 < natoms) (hbins : 0 < bins)
    (hplen : (d.drop (bins + 6)).length = natoms * (bins + 1))
    (hline : ∀ j, j < (d.drop (bins + 6)).length → j % (bins + 1) ≠ 0 →
      ((d.drop (bins + 6)).getD j []).length = ncolP + 1) :
    ∃ td pd, read_tdos spin0 d = some td ∧ read_pdos spin1 d = some pd ∧
      td.en.length = bins ∧
      Shape3 pd.pdos natoms bins ncolP ∧
      (∀ s b o, s < natoms → b < bins → o < ncolP →
        tget pd.pdos s b o
          = some (((d.drop (bins + 6)).getD (s * (bins + 1) + 1 + b) []).getD (o + 1) 0)) := by
  have ht := read_tdos_spec spin0 d line0 ((natoms : ℕ) : ℤ) bins ncolT maxE minE fermi w rows
    h0 (by rw [Int.cast_natCast]; exact h0t) h5 hrows hlen hcol hbins
  obtain ⟨pd, hp, _, _, _, _, _, _, _, hsh, htget⟩ := read_pdos_spec spin1 d line0
    natoms bins ncolP maxE minE fermi w h0 h0t h5 hnat hbins hplen hline
  refine ⟨_, pd, ht, hp, ?_, hsh, htget⟩
  show (rows.map _).length = bins
  rw [List.length_map]
  subst hrows
  rw [List.length_take]
  exact Nat.min_eq_left hlen

/-- Witness for `readers_shape_and_indexing`: the synthetic 2-atom, 3-bin,
1-orbital file (total block rows `(2,4) (1,2) (0,0)`, projected block of
two 4-line segments with values `5..10`): energies have length 3, the
tensor is `[[[5],[6],[7]],[[8],[9],[10]]]`. -/
theorem readers_shape_and_indexing_witness :
    (∃ td pd,
      read_tdos false [[2],[],[],[],[],[10,-10,3,1,1],[2,4],[1,2],[0,0],
        [9,9],[2,5],[1,6],[0,7],[9,9],[2,8],[1,9],[0,10]] = some td ∧
      read_pdos false [[2],[],[],[],[],[10,-10,3,1,1],[2,4],[1,2],[0,0],
        [9,9],[2,5],[1,6],[0,7],[9,9],[2,8],[1,9],[0,10]] = some pd ∧
      td.en.length = 3 ∧
      Shape3 pd.pdos 2 3 1 ∧
      (∀ s b o, s < 2 → b < 3 → o < 1 →
        tget pd.pdos s b o
          = some ((([[2],[],[],[],[],[10,-10,3,1,1],[2,4],[1,2],[0,0],
              [9,9],[2,5],[1,6],[0,7],[9,9],[2,8],[1,9],[0,10]].drop (3 + 6)).getD
                (s * (3 + 1) + 1 + b) ([] : List ℚ)).getD (o + 1) 0))) ∧
    (read_pdos false [[2],[],[],[],[],[10,-10,3,1,1],[2,4],[1,2],[0,0],
        [9,9],[2,5],[1,6],[0,7],[9,9],[2,8],[1,9],[0,10]]).map (fun pd => pd.pdos)
      = some [[[5],[6],[7]],[[8],[9],[10]]] :=
  ⟨readers_shape_and_indexing false false _ [2] 2 3 1 1 10 (-10) 1 1 [[2,4],[1,2],[0,0]]
      (by decide) (by norm_num) (by norm_num) (by decide) (by decide) (by decide)
      (by decide) (by decide) (by decide) (by decide),
    by decide⟩

/-- **C9**: whenever the projected data is detected as spin-polarized
(inferred orbital-column count in {2, 8, 18}), the spin flag is recorded
and `plot_pdos` raises the unimplemented-feature error
(`ImplementationError`) before any projection curve is computed — for
every projection list, the result is the error and never numeric
curves. -/
theorem plot_pdos_spin_guard (spin0 : Bool) (d : List (List ℚ)) (line0 : List ℚ)
    (natoms bins ncol : ℕ) (maxE minE fermi w : ℚ)
    (h0 : d[0]? = some line0) (h0t : line0[0]? = some ((natoms : ℚ)))
    (h5 : d[5]? = some [maxE, minE, (bins : ℚ), fermi, w])
    (hnat : 0 < natoms) (hbins : 0 < bins)
    (hplen : (d.drop (bins + 6)).length = natoms * (bins + 1))
    (hline : ∀ j, j < (d.drop (bins + 6)).length → j % (bins + 1) ≠ 0 →
      ((d.drop (bins + 6)).getD j []).length = ncol + 1)
    (hdet : ncol = 2 ∨ ncol = 8 ∨ ncol = 18) :
    ∃ pd, read_pdos spin0 d = some pd ∧ pd.spin = true ∧
      ∀ projs : List ((ℕ × ℕ) × (ℕ × ℕ)),
        plot_pdos_curves pd.spin pd.bins pd.natoms pd.pdos projs
          = Except.error PyError.implementationError ∧
        ∀ curves, plot_pdos_curves pd.spin pd.bins pd.natoms pd.pdos projs
          ≠ Except.ok curves := by
  obtain ⟨pd, hp, _, _, _, hncol, hspin, _, _, _, _⟩ := read_pdos_spec spin0 d line0
    natoms bins ncol maxE minE fermi w h0 h0t h5 hnat hbins hplen hline
  have hs : pd.spin = true := by
    rw [hspin, decide_eq_true hdet, Bool.or_true]
  refine ⟨pd, hp, hs, ?_⟩
  intro projs
  rw [hs]
  constructor
  · rw [plot_pdos_curves, if_pos rfl]
  · intro curves
    rw [plot_pdos_curves, if_pos rfl]
    intro h
    exact Except.noConfusion h

/-- Witness for `plot_pdos_spin_guard`: a one-atom, one-bin file whose
projected rows carry 3 tokens (2 orbital columns, detected
spin-polarized); plotting raises `ImplementationError` for every
projection list. -/
theorem plot_pdos_spin_guard_witness :
    ∃ pd, read_pdos false [[1],[],[],[],[],[10,-10,1,0,1],[5,1],[9,9],[5,1,2]] = some pd ∧
      pd.spin = true ∧
      ∀ projs : List ((ℕ × ℕ) × (ℕ × ℕ)),
        plot_pdos_curves pd.spin pd.bins pd.natoms pd.pdos projs
          = Except.error PyError.implementationError ∧
        ∀ curves, plot_pdos_curves pd.spin pd.bins pd.natoms pd.pdos projs
          ≠ Except.ok curves :=
  plot_pdos_spin_guard false _ [1] 1 1 2 10 (-10) 0 1
    (by decide) (by norm_num) (by norm_num) (by decide) (by decide) (by decide) (by decide)
    (Or.inl rfl)

/-! ## The axis-range estimator -/

theorem fold_range_window :
    ∀ (en dos : List ℚ), dos.length = en.length → ∀ a : ℚ,
      (List.range en.length).foldl (fun ymax i =>
        if -6 ≤ en.getD i 0 ∧ en.getD i 0 ≤ 6 then
          (if ymax < dos.getD i 0 then dos.getD i 0 else ymax)
        else ymax) a
      = (windowValues en dos).foldl (fun ymax v => if ymax < v then v else ymax) a := by
  intro en
  induction en with
  | nil => intro dos h a; rfl
  | cons e etail ih =>
    intro dos h a
    obtain ⟨v, dtail, rfl⟩ : ∃ v dtail, dos = v :: dtail := by
      cases dos with
      | nil => rw [List.length_nil] at h; rw [List.length_cons] at h; omega
      | cons x y => exact ⟨x, y, rfl⟩
    have hlen : dtail.length = etail.length := by
      rw [List.length_cons, List.length_cons] at h
      omega
    rw [List.length_cons, List.range_succ_eq_map, List.foldl_cons, List.foldl_map]
    show (List.range etail.length).foldl (fun ymax i =>
        if -6 ≤ etail.getD i 0 ∧ etail.getD i 0 ≤ 6 then
          (if ymax < dtail.getD i 0 then dtail.getD i 0 else ymax)
        else ymax) (if -6 ≤ e ∧ e ≤ 6 then (if a < v then v else a) else a)
      = (windowValues (e :: etail) (v :: dtail)).foldl
          (fun ymax v => if ymax < v then v else ymax) a
    by_cases hw : -6 ≤ e ∧ e ≤ 6
    · have hwv : windowValues (e :: etail) (v :: dtail) = v :: windowValues etail dtail := by
        simp only [windowValues, List.zip_cons_cons, List.filterMap_cons, if_pos hw]
      rw [hwv, List.foldl_cons, if_pos hw]
      exact ih dtail hlen _
    · have hwv : windowValues (e :: etail) (v :: dtail) = windowValues etail dtail := by
        simp only [windowValues, List.zip_cons_cons, List.filterMap_cons, if_neg hw]
      rw [hwv, if_neg hw]
      exact ih dtail hlen a

theorem foldl_max_init (l : List ℚ) :
    ∀ a : ℚ, a ≤ l.foldl (fun y v => if y < v then v else y) a := by
  induction l with
  | nil => intro a; exact le_refl a
  | cons v rest ih =>
    intro a
    rw [List.foldl_cons]
    refine le_trans ?_ (ih _)
    by_cases h : a < v
    · rw [if_pos h]; exact le_of_lt h
    · rw [if_neg h]

theorem foldl_max_le (l : List ℚ) :
    ∀ (a x : ℚ), x ∈ l → x ≤ l.foldl (fun y v => if y < v then v else y) a := by
  induction l with
  | nil => intro a x hx; cases hx
  | cons v rest ih =>
    intro a x hx
    rw [List.foldl_cons]
    rcases List.mem_cons.mp hx with h | h
    · subst h
      refine le_trans ?_ (foldl_max_init rest _)
      by_cases h2 : a < x
      · rw [if_pos h2]
      · rw [if_neg h2]
        exact not_lt.mp h2
    · exact ih _ x h

theorem foldl_max_mem (l : List ℚ) :
    ∀ a : ℚ, l.foldl (fun y v => if y < v then v else y) a = a
      ∨ l.foldl (fun y v => if y < v then v else y) a ∈ l := by
  induction l with
  | nil => intro a; exact Or.inl rfl
  | cons v rest ih =>
    intro a
    rw [List.foldl_cons]
    rcases ih (if a < v then v else a) with h | h
    · rw [h]
      by_cases h2 : a < v
      · rw [if_pos h2] at h ⊢
        exact Or.inr (List.mem_cons_self v rest)
      · rw [if_neg h2] at h ⊢
        exact Or.inl rfl
    · exact Or.inr (List.mem_cons_of_mem v h)

theorem windowValues_subset (en dos : List ℚ) (v : ℚ) (hv : v ∈ windowValues en dos) :
    v ∈ dos := by
  rw [windowValues] at hv
  obtain ⟨p, hp, hpe⟩ := List.mem_filterMap.mp hv
  obtain ⟨a, b⟩ := p
  by_cases hc : -6 ≤ a ∧ a ≤ 6
  · rw [if_pos hc] at hpe
    obtain rfl : b = v := Option.some_inj.mp hpe
    exact (List.of_mem_zip hp).2
  · rw [if_neg hc] at hpe
    cases hpe

/-- **C6**: AxisRangeEstimator postcondition for a non-spin curve with
nonnegative values and a nonempty display window: the computed bounds are
`x_min = -6`, `x_max = 6`, `y_min = 0` (independent of the data), and
`y_max = 1.05 * min 5 M` where `M` is the maximum curve value over the
bins whose energy lies in `[-6, 6]` (the cap at 5 applies to the display
bound only; `dos` itself is unchanged — the estimator is a pure
function of it).  The 7.2-peak and 3.0-peak instances are evaluated in
the witness. -/
theorem set_axes_limits_bounds (bins : ℕ) (en dos : List ℚ) (M : ℚ)
    (hbins : bins = en.length) (hlen : dos.length = en.length)
    (hnn : ∀ v ∈ dos, 0 ≤ v)
    (hM : M ∈ windowValues en dos)
    (hMax : ∀ v ∈ windowValues en dos, v ≤ M) :
    set_axes_limits_nospin bins en dos = (-6, 6, 0, 1.05 * min 5 M) := by
  subst hbins
  have hfold := fold_range_window en dos hlen 0
  have hfM : (windowValues en dos).foldl (fun y v => if y < v then v else y) 0 = M := by
    apply le_antisymm
    · rcases foldl_max_mem (windowValues en dos) 0 with h | h
      · rw [h]
        exact hnn M (windowValues_subset en dos M hM)
      · exact hMax _ h
    · exact foldl_max_le _ 0 M hM
  have hcap : (if (5 : ℚ) < M then (5 : ℚ) else M) = min 5 M := by
    rcases lt_or_ge 5 M with h | h
    · rw [if_pos h, min_eq_left (le_of_lt h)]
    · rw [if_neg (not_lt.mpr h), min_eq_right h]
  show (-6, 6, 0, (1.05 : ℚ) * (if (5 : ℚ) <
      (List.range en.length).foldl (fun ymax i =>
        if -6 ≤ en.getD i 0 ∧ en.getD i 0 ≤ 6 then
          (if ymax < dos.getD i 0 then dos.getD i 0 else ymax)
        else ymax) 0
    then (5 : ℚ) else
      (List.range en.length).foldl (fun ymax i =>
        if -6 ≤ en.getD i 0 ∧ en.getD i 0 ≤ 6 then
          (if ymax < dos.getD i 0 then dos.getD i 0 else ymax)
        else ymax) 0)) = (-6, 6, 0, 1.05 * min 5 M)
  rw [hfold, hfM, hcap]

/-- Witness for `set_axes_limits_bounds`: the curve `[36/5, 1]` (peak 7.2)
on energies `[0, 1]` yields axis top `1.05 * 5 = 21/4 = 5.25`; the curve
`[3]` on energy `[0]` yields `1.05 * 3 = 63/20 = 3.15`. -/
theorem set_axes_limits_bounds_witness :
    set_axes_limits_nospin 2 [0, 1] [36/5, 1] = (-6, 6, 0, 1.05 * min 5 (36/5)) ∧
    set_axes_limits_nospin 2 [0, 1] [36/5, 1] = (-6, 6, 0, 21/4) ∧
    set_axes_limits_nospin 1 [0] [3] = (-6, 6, 0, 63/20) :=
  ⟨set_axes_limits_bounds 2 [0, 1] [36/5, 1] (36/5)
      (by decide) (by decide) (by decide) (by decide) (by decide),
    by decide, by decide⟩

/-! ## The structure-file reader -/

/-- **C8**: the format-version validation of `read_poscar` is dead code.
The check `isinstance(elem, str)` is true for EVERY token produced by
`str.split()` in Python 2, so `VaspFormatError` can never be raised — the
first conjunct shows no input whatsoever produces it.  On the pre-VASP5
structure file whose line 5 holds the numeric tokens `4 4` (and line 6
`2 2`), construction silently succeeds, treating `"4"` as an element
symbol (second conjunct), although `"4"` is not a symbolic token (third
conjunct) and the spec requires a format-version error there. -/
theorem read_poscar_format_check_dead :
    (∀ pos : List (List String), read_poscar pos ≠ Except.error PyError.vaspFormatError) ∧
    read_poscar [[],[],[],[],[],["4","4"],["2","2"]]
      = Except.ok ⟨4, [(1,"4"),(2,"4"),(3,"4"),(4,"4")]⟩ ∧
    isSymbolicToken "4" = false := by
  refine ⟨?_, by decide, by decide⟩
  intro pos
  rw [read_poscar]
  cases h5 : pos[5]? with
  | none => simp
  | some elems =>
    have hall : elems.all isinstance_str = true := by
      rw [List.all_eq_true]
      intro x _
      rfl
    simp only [hall, not_true_eq_false, if_false]
    cases h6 : pos[6]? with
    | none => simp
    | some l6 =>
      cases hloop : List.mapM.loop pyIntString l6 [] with
      | none => simp [hloop]
      | some natomsL => simp [hloop]

end DosPlotter
